import Mathlib

/-!
Verification of the pairwise-alignment repository.

The repository contains an affine-gap alignment engine
(`Project/Pairwise_Alignment_Modified/task.py`) and two linear-gap variants
(`Project/Pairwise_Alignment/task.py` and `task1.py`).  This file embeds the
dynamic-programming fill and traceback of those scripts and proves the claims
of the specification against them.

Modelling conventions:
* Python's `float('-inf')` sentinel together with integer scores is embedded as
  `WithBot ℤ`: `⊥` is `-inf`, coerced integers are the finite scores.  Python's
  `-inf + s = -inf` matches `⊥ + (s : WithBot ℤ) = ⊥`, and the mixed
  `int`/`-inf` comparison order matches the `WithBot` order.
* Each Python table cell is written exactly once (base initialisation or the
  row-major fill loop) and reads only cells already written (row `i-1`, or the
  same row strictly to the left).  The tables are therefore embedded as
  structurally recursive functions: row 0 directly, row `i+1` from row `i` and
  from the cells of row `i+1` already computed to the left.  Cells outside the
  `(m+1) × (n+1)` extent of the Python lists are junk values of the same
  recurrence and are never mentioned by the theorems.
* Sequence indexing `x[i-1]` (always in range in the source) is embedded as
  `List.getD` with an arbitrary default `'?'`.
-/

/-- The scoring dictionary of `task.py` (affine variant) once `alpha`, `beta`
and every needed substitution entry have been read successfully:
`score[(a,b)]` becomes `sub a b`, `score["alpha"]` becomes `alpha`,
`score["beta"]` becomes `beta`. -/
structure ScoreM where
  sub : Char → Char → Int
  alpha : Int
  beta : Int

/-- Python `max` over the three-element list `[(a,0),(b,1),(c,2)]` of
(score, state) pairs, lines 128-133 and 158-163 of the affine `task.py`:
the lexicographically largest pair wins, so among tied scores the highest
state index is selected. -/
def pick3 (a b c : WithBot ℤ) : WithBot ℤ × Nat :=
  if c ≥ a ∧ c ≥ b then (c, 2) else if b ≥ a then (b, 1) else (a, 0)

/-- The two-way selection `if from_m >= from_i: ... else: ...` of the
insertion/deletion recurrences (lines 140-145 and 150-155): the
gap-open-from-Match option wins ties. -/
def pick2 (a b : WithBot ℤ) (sa sb : Nat) : WithBot ℤ × Nat :=
  if a ≥ b then (a, sa) else (b, sb)

/-- One cell of the eight tables built by `fill_dp_table` (affine variant):
the Match/Insertion/Deletion score tables, their predecessor tables, and the
final score/backtrack tables.  States are numbered as in the source:
0 = Match, 1 = Insertion, 2 = Deletion.  Predecessor entries are
`(state, i, j)` triples, `none` standing for Python `None`. -/
structure AffCell where
  mS : WithBot ℤ
  iS : WithBot ℤ
  dS : WithBot ℤ
  mP : Option (Nat × Nat × Nat)
  iP : Option (Nat × Nat × Nat)
  dP : Option (Nat × Nat × Nat)
  fS : WithBot ℤ
  fP : Option (Nat × Nat × Nat)

/-- Row 0 of the affine tables: cell `(0,0)` holds `m_score_table[0][0] = 0`
and `f_score_table[0][0] = 0` (lines 111-112); cell `(0, j+1)` holds the first
row of the insertion table, `i_score_table[0][j+1] = alpha + j * beta` with
predecessor `(1, 0, j)` (lines 118-120).  All other entries keep their
initial `-inf` / `None` values. -/
def affRow0 (sc : ScoreM) : Nat → AffCell
  | 0 => ⟨(0 : ℤ), ⊥, ⊥, none, none, none, (0 : ℤ), none⟩
  | j + 1 =>
    ⟨⊥, ((sc.alpha + (j : ℤ) * sc.beta : ℤ) : WithBot ℤ), ⊥,
      none, some (1, 0, j), none, ⊥, none⟩

/-- Row `i+1` of the affine tables, given row `i` (`prev`) and the symbol
`xi = x[i]`.  Column 0 is the first-column initialisation of the deletion
table, `d_score_table[i+1][0] = alpha + i * beta` with predecessor
`(2, i, 0)` (lines 114-116).  Column `j+1` is the body of the fill loop
(lines 123-165). -/
def affRowStep (sc : ScoreM) (xi : Char) (y : List Char) (i : Nat)
    (prev : Nat → AffCell) : Nat → AffCell
  | 0 =>
    ⟨⊥, ⊥, ((sc.alpha + (i : ℤ) * sc.beta : ℤ) : WithBot ℤ),
      none, none, some (2, i, 0), ⊥, none⟩
  | j + 1 =>
    let cur := affRowStep sc xi y i prev j
    let nw := prev j
    let no := prev (j + 1)
    let s : ℤ := sc.sub xi (y.getD j '?')
    let bm := pick3 (nw.mS + (s : WithBot ℤ)) (nw.iS + (s : WithBot ℤ))
      (nw.dS + (s : WithBot ℤ))
    let bi := pick2 (cur.mS + (sc.alpha : WithBot ℤ))
      (cur.iS + (sc.beta : WithBot ℤ)) 0 1
    let bd := pick2 (no.mS + (sc.alpha : WithBot ℤ))
      (no.dS + (sc.beta : WithBot ℤ)) 0 2
    let bf := pick3 bm.1 bi.1 bd.1
    ⟨bm.1, bi.1, bd.1,
      some (bm.2, i, j), some (bi.2, i + 1, j), some (bd.2, i, j + 1),
      bf.1, some (bf.2, i + 1, j + 1)⟩

/-- The tables returned by `fill_dp_table` of the affine `task.py`, as a
function of the cell coordinates: `affTable sc x y i j` is the cell `(i, j)`
of the eight tables. -/
def affTable (sc : ScoreM) (x y : List Char) : Nat → Nat → AffCell
  | 0 => affRow0 sc
  | i + 1 => affRowStep sc (x.getD i '?') y i (affTable sc x y i)

/-- The score of a given state at a cell: state 0 reads the Match table,
1 the Insertion table, 2 the Deletion table; any other state has no table
(used to express that the traceback raises `ValueError` there). -/
def stSc (t : Nat → Nat → AffCell) (k i j : Nat) : WithBot ℤ :=
  match k with
  | 0 => (t i j).mS
  | 1 => (t i j).iS
  | 2 => (t i j).dS
  | _ => ⊥

/-- The predecessor-table read performed by one iteration of the traceback
loop (lines 200-214): state 0 reads `m_prev_table`, state 1 `i_prev_table`,
state 2 `d_prev_table`; any other state raises `ValueError`, and a `None`
entry makes the tuple unpacking raise; both fatal outcomes are `none`. -/
def predRead (t : Nat → Nat → AffCell) (k i j : Nat) :
    Option (Nat × Nat × Nat) :=
  match k with
  | 0 => (t i j).mP
  | 1 => (t i j).iP
  | 2 => (t i j).dP
  | _ => none

/-- The traceback `while` loop (lines 200-217) of the affine variant, run
from state `k` at cell `(i, j)`.  Returns the emitted characters of the two
aligned sequences and the visited path, all in traceback (reversed) order,
the path including the starting cell, exactly as the source accumulates
them before the final `reverse` calls.  The loop is embedded with explicit
fuel; every successful iteration moves to a cell with strictly smaller
`i + j` (proved below), so fuel `i + j` makes the embedding exact, and a
fatal `None`-unpacking or `ValueError` is `none`. -/
def tbGo (x y : List Char) (t : Nat → Nat → AffCell) :
    Nat → Nat → Nat → Nat →
    Option (List Char × List Char × List (Nat × Nat × Nat))
  | 0, k, i, j =>
    if i = 0 ∧ j = 0 then some ([], [], [(i, j, k)]) else none
  | fuel + 1, k, i, j =>
    if i = 0 ∧ j = 0 then some ([], [], [(i, j, k)])
    else
      match predRead t k i j with
      | none => none
      | some (k', i', j') =>
        match tbGo x y t fuel k' i' j' with
        | none => none
        | some (ax, ay, p) =>
          some ((if k = 0 then x.getD i' '?'
                 else if k = 1 then '-' else x.getD i' '?') :: ax,
                (if k = 0 then y.getD j' '?'
                 else if k = 1 then y.getD j' '?' else '-') :: ay,
                (i, j, k) :: p)

/-- The function `traceback_alignment_from_f_table` (lines 179-267) composed with the
tables of `fill_dp_table`, omitting the file output: the starting state is
unpacked from `f_prev_table[m][n]` (a `None` there makes the unpacking
raise, hence `none`), the loop is run, and the aligned sequences and path
are reversed; the reported score is `f_score_table[m][n]`. -/
def traceback_alignment_from_f_table (x y : List Char) (sc : ScoreM) :
    Option (List Char × List Char × List (Nat × Nat × Nat) × WithBot ℤ) :=
  let m := x.length
  let n := y.length
  let t := affTable sc x y
  match (t m n).fP with
  | none => none
  | some (k, i, j) =>
    match tbGo x y t (m + n) k i j with
    | none => none
    | some (ax, ay, p) =>
      some (ax.reverse, ay.reverse, p.reverse, (t m n).fS)

instance :
    DecidableEq (List Char × List Char × List (Nat × Nat × Nat) × WithBot ℤ) :=
  instDecidableEqProd

instance :
    DecidableEq (List Char × List Char × List (Nat × Nat) × ℤ) :=
  instDecidableEqProd

/-!
## Linear-gap variants

`Project/Pairwise_Alignment/task.py` (`fill_dp_table`, lines 67-111) and
`Project/Pairwise_Alignment/task1.py` (`fill_dp_table`, lines 67-101) compute
the classical single-table recurrence with gap penalty `delta`.  Every cell of
the score table is overwritten before being read (base case, first row/column
loops, then the row-major fill), so the differing initial values
(`float('-inf')` in `task.py`, `0` in `task1.py`) never survive and the score
tables are embedded as total `ℤ`-valued functions.  The predecessor tables
differ in their never-written cell `(0,0)`: `task.py` leaves `None`
(`Option`), `task1.py` leaves `(-1,-1)` (an `ℤ × ℤ` pair).
-/

/-- One cell of the linear tables of `task.py`: score, and predecessor
`(i, j)` pair with `none` for Python `None`. -/
structure LinCell where
  sS : ℤ
  pP : Option (Nat × Nat)

/-- One cell of the linear tables of `task1.py`: score, and predecessor
pair stored as plain integers, `(-1, -1)` being the untouched initial
value at `(0,0)`. -/
structure Lin1Cell where
  sS : ℤ
  pP : ℤ × ℤ

/-- Row 0 of `task.py`'s linear tables: `score_table[0][0] = 0` (line 81),
`score_table[0][j] = score_table[0][j-1] + delta`, `prev_table[0][j] =
(0, j-1)` (lines 89-91). -/
def linRow0 (δ : ℤ) : Nat → LinCell
  | 0 => ⟨0, none⟩
  | j + 1 => ⟨(linRow0 δ j).sS + δ, some (0, j)⟩

/-- Row `i+1` of `task.py`'s linear tables, from row `i`: the first-column
initialisation (lines 84-86) and the fill loop (lines 94-109).  Python's
`max(match, delete, insert)` is left-to-right binary `max`, and the
traceback entry tests `best == match`, then `best == delete`, else insert. -/
def linRowStep (sub : Char → Char → ℤ) (δ : ℤ) (xi : Char) (y : List Char)
    (i : Nat) (prev : Nat → LinCell) : Nat → LinCell
  | 0 => ⟨(prev 0).sS + δ, some (i, 0)⟩
  | j + 1 =>
    let cur := linRowStep sub δ xi y i prev j
    let mo := (prev j).sS + sub xi (y.getD j '?')
    let de := (prev (j + 1)).sS + δ
    let io := cur.sS + δ
    let best := max (max mo de) io
    ⟨best,
      if best = mo then some (i, j)
      else if best = de then some (i, j + 1) else some (i + 1, j)⟩

/-- The tables of `fill_dp_table` in the linear `task.py`, per cell. -/
def linTable (sub : Char → Char → ℤ) (δ : ℤ) (x y : List Char) :
    Nat → Nat → LinCell
  | 0 => linRow0 δ
  | i + 1 => linRowStep sub δ (x.getD i '?') y i (linTable sub δ x y i)

/-- Row 0 of `task1.py`'s linear tables: the `(0,0)` cell keeps its initial
score `0` and initial predecessor `(-1, -1)` (lines 74-75); the first row is
filled by lines 81-83. -/
def lin1Row0 (δ : ℤ) : Nat → Lin1Cell
  | 0 => ⟨0, (-1, -1)⟩
  | j + 1 => ⟨(lin1Row0 δ j).sS + δ, ((0 : ℤ), (j : ℤ))⟩

/-- Row `i+1` of `task1.py`'s linear tables (lines 77-79 and 85-99); the
recurrence is character-for-character that of `task.py`'s linear variant,
only the predecessor representation differs. -/
def lin1RowStep (sub : Char → Char → ℤ) (δ : ℤ) (xi : Char) (y : List Char)
    (i : Nat) (prev : Nat → Lin1Cell) : Nat → Lin1Cell
  | 0 => ⟨(prev 0).sS + δ, ((i : ℤ), (0 : ℤ))⟩
  | j + 1 =>
    let cur := lin1RowStep sub δ xi y i prev j
    let mo := (prev j).sS + sub xi (y.getD j '?')
    let de := (prev (j + 1)).sS + δ
    let io := cur.sS + δ
    let best := max (max mo de) io
    ⟨best,
      if best = mo then ((i : ℤ), (j : ℤ))
      else if best = de then ((i : ℤ), ((j : ℤ) + 1))
      else (((i : ℤ) + 1), (j : ℤ))⟩

/-- The tables of `fill_dp_table` in `task1.py`, per cell. -/
def lin1Table (sub : Char → Char → ℤ) (δ : ℤ) (x y : List Char) :
    Nat → Nat → Lin1Cell
  | 0 => lin1Row0 δ
  | i + 1 => lin1RowStep sub δ (x.getD i '?') y i (lin1Table sub δ x y i)

/-- The traceback `while` loop of the linear `task.py` (lines 131-145), with
explicit fuel; reading the `None` cell would make the tuple unpacking raise,
which is `none`.  The three branches compare the stored predecessor with
`(i-1, j-1)`, `(i-1, j)` as the Python integers do, so the comparisons are
made in `ℤ` (for `i = 0` Python computes `i - 1 = -1`). -/
def tbLin (x y : List Char) (t : Nat → Nat → LinCell) :
    Nat → Nat → Nat → Option (List Char × List Char × List (Nat × Nat))
  | 0, i, j => if i = 0 ∧ j = 0 then some ([], [], [(i, j)]) else none
  | fuel + 1, i, j =>
    if i = 0 ∧ j = 0 then some ([], [], [(i, j)])
    else
      match (t i j).pP with
      | none => none
      | some (pi, pj) =>
        match tbLin x y t fuel pi pj with
        | none => none
        | some (ax, ay, p) =>
          some ((if (pi : ℤ) = (i : ℤ) - 1 ∧ (pj : ℤ) = (j : ℤ) - 1 then
                   x.getD pi '?'
                 else if (pi : ℤ) = (i : ℤ) - 1 ∧ (pj : ℤ) = (j : ℤ) then
                   x.getD pi '?'
                 else '-') :: ax,
                (if (pi : ℤ) = (i : ℤ) - 1 ∧ (pj : ℤ) = (j : ℤ) - 1 then
                   y.getD pj '?'
                 else if (pi : ℤ) = (i : ℤ) - 1 ∧ (pj : ℤ) = (j : ℤ) then '-'
                 else y.getD pj '?') :: ay,
                (i, j) :: p)

/-- The function `traceback_alignment` of the linear `task.py` (lines 118-181), file
output omitted: loop from `(m, n)`, reversing the accumulated lists, with
final score `score_table[m][n]`. -/
def traceback_alignment (x y : List Char) (sub : Char → Char → ℤ) (δ : ℤ) :
    Option (List Char × List Char × List (Nat × Nat) × ℤ) :=
  let m := x.length
  let n := y.length
  let t := linTable sub δ x y
  match tbLin x y t (m + n) m n with
  | none => none
  | some (ax, ay, p) => some (ax.reverse, ay.reverse, p.reverse, (t m n).sS)

/-- The traceback `while` loop of `task1.py` (lines 121-135): identical to
the `task.py` loop except that the predecessor cell is a plain integer pair,
so the unpacking never raises.  Every cell this loop can read while the
guard `i > 0 or j > 0` holds stores the nonnegative coordinates written by
the fill (the `(-1,-1)` cell `(0,0)` is read only after the guard fails), so
the loop state is kept in `ℕ` and the read pair is converted with
`Int.toNat`. -/
def tbLin1 (x y : List Char) (t : Nat → Nat → Lin1Cell) :
    Nat → Nat → Nat → Option (List Char × List Char × List (Nat × Nat))
  | 0, i, j => if i = 0 ∧ j = 0 then some ([], [], [(i, j)]) else none
  | fuel + 1, i, j =>
    if i = 0 ∧ j = 0 then some ([], [], [(i, j)])
    else
      let pi := (t i j).pP.1
      let pj := (t i j).pP.2
      match tbLin1 x y t fuel pi.toNat pj.toNat with
      | none => none
      | some (ax, ay, p) =>
        some ((if pi = (i : ℤ) - 1 ∧ pj = (j : ℤ) - 1 then x.getD pi.toNat '?'
               else if pi = (i : ℤ) - 1 ∧ pj = (j : ℤ) then x.getD pi.toNat '?'
               else '-') :: ax,
              (if pi = (i : ℤ) - 1 ∧ pj = (j : ℤ) - 1 then y.getD pj.toNat '?'
               else if pi = (i : ℤ) - 1 ∧ pj = (j : ℤ) then '-'
               else y.getD pj.toNat '?') :: ay,
              (i, j) :: p)

/-- The function `traceback_alignment` of `task1.py` (lines 108-162), file output
omitted. -/
def traceback_alignment1 (x y : List Char) (sub : Char → Char → ℤ) (δ : ℤ) :
    Option (List Char × List Char × List (Nat × Nat) × ℤ) :=
  let m := x.length
  let n := y.length
  let t := lin1Table sub δ x y
  match tbLin1 x y t (m + n) m n with
  | none => none
  | some (ax, ay, p) => some (ax.reverse, ay.reverse, p.reverse, (t m n).sS)

/-!
## Error behaviour of the affine fill

`fill_dp_table` reads the scoring dictionary at three program points, in this
source order: `score["alpha"]` and `score["beta"]` (lines 93-94), which run
*before* the eight tables are allocated (lines 97-108) and initialised
(lines 111-120); and `score[(x[i-1], y[j-1])]` (line 125), which runs inside
the row-major fill loop, after all that table work.  A missing key raises
`KeyError` at the corresponding point.  This is embedded with a partial
scoring model and an error type that records the program point of the
raise. -/
structure PScoreM where
  alpha : Option ℤ
  beta : Option ℤ
  sub : Char → Char → Option ℤ

/-- Where `fill_dp_table` raises: a missing gap parameter raises at
line 93/94, a substitution entry missing for the pair first needed at loop
position `(i, j)` raises at line 125 of iteration `(i, j)`. -/
inductive FillErr where
  | missingAlpha : FillErr
  | missingBeta : FillErr
  | missingSubst : Nat → Nat → FillErr
deriving DecidableEq

/-- Whether the `KeyError` of `fill_dp_table` is raised before any table is
allocated or written, by the source order of the lines above: the gap
parameters are read first (lines 93-94), the substitution entries only
inside the fill loop (line 125). -/
def raisesBeforeTableWork : FillErr → Bool
  | .missingAlpha => true
  | .missingBeta => true
  | .missingSubst _ _ => false

/-- The first loop position `(i, j)` (row-major, `1 ≤ i ≤ m`, `1 ≤ j ≤ n`,
exactly the iteration order of lines 123-124) whose substitution lookup
`score[(x[i-1], y[j-1])]` is absent. -/
def firstMissing (sc : PScoreM) (x y : List Char) : Option (Nat × Nat) :=
  ((List.range x.length).flatMap fun i =>
      (List.range y.length).map fun j => (i + 1, j + 1)).find?
    fun c => (sc.sub (x.getD (c.1 - 1) '?') (y.getD (c.2 - 1) '?')).isNone

/-- The function `fill_dp_table` with its `KeyError` behaviour: the gap parameters are
read before any table work; if every needed substitution entry is present
the call returns the filled tables (`affTable` over the totalised model),
otherwise it raises at the first row-major position needing a missing
entry. -/
def fill_dp_table_checked (x y : List Char) (sc : PScoreM) :
    Except FillErr (Nat → Nat → AffCell) :=
  match sc.alpha with
  | none => .error .missingAlpha
  | some a =>
    match sc.beta with
    | none => .error .missingBeta
    | some b =>
      match firstMissing sc x y with
      | some (i, j) => .error (.missingSubst i j)
      | none => .ok (affTable ⟨fun c d => (sc.sub c d).getD 0, a, b⟩ x y)

/-!
## Helper lemmas
-/

lemma pick3_fst (a b c : WithBot ℤ) : (pick3 a b c).1 = max (max a b) c := by
  unfold pick3
  split_ifs with h1 h2
  · exact (max_eq_right (max_le h1.1 h1.2)).symm
  · rcases not_and_or.mp h1 with h | h
    · have hca : c < a := not_le.mp h
      have hcb : c ≤ b := le_trans hca.le h2
      rw [max_eq_right h2, max_eq_left hcb]
    · have hcb : c < b := not_le.mp h
      rw [max_eq_right h2, max_eq_left hcb.le]
  · have hba : b < a := not_le.mp h2
    rcases not_and_or.mp h1 with h | h
    · have hca : c < a := not_le.mp h
      rw [max_eq_left hba.le, max_eq_left hca.le]
    · have hca : c < a := lt_trans (not_le.mp h) hba
      rw [max_eq_left hba.le, max_eq_left hca.le]

lemma pick3_attains (a b c : WithBot ℤ) :
    (pick3 a b c).2 = 0 ∧ (pick3 a b c).1 = a ∨
    (pick3 a b c).2 = 1 ∧ (pick3 a b c).1 = b ∨
    (pick3 a b c).2 = 2 ∧ (pick3 a b c).1 = c := by
  unfold pick3
  split_ifs <;> simp

lemma pick3_snd_le (a b c : WithBot ℤ) : (pick3 a b c).2 ≤ 2 := by
  unfold pick3
  split_ifs <;> simp

lemma pick3_snd_eq (a b c : WithBot ℤ) :
    (pick3 a b c).2 = if c ≥ a ∧ c ≥ b then 2 else if b ≥ a then 1 else 0 := by
  unfold pick3
  split_ifs <;> rfl

lemma pick3_sel_val (a b c : WithBot ℤ) :
    (if c ≥ a ∧ c ≥ b then c else if b ≥ a then b else a) =
      (pick3 a b c).1 := by
  unfold pick3
  split_ifs <;> rfl

lemma pick2_snd_eq (a b : WithBot ℤ) (sa sb : Nat) :
    (pick2 a b sa sb).2 = if a ≥ b then sa else sb := by
  unfold pick2
  split_ifs <;> rfl

lemma pick2_fst (a b : WithBot ℤ) (sa sb : Nat) :
    (pick2 a b sa sb).1 = max a b := by
  unfold pick2
  split_ifs with h
  · exact (max_eq_left h).symm
  · exact (max_eq_right (not_le.mp h).le).symm

lemma pick2_attains (a b : WithBot ℤ) (sa sb : Nat) :
    (pick2 a b sa sb).2 = sa ∧ (pick2 a b sa sb).1 = a ∨
    (pick2 a b sa sb).2 = sb ∧ (pick2 a b sa sb).1 = b := by
  unfold pick2
  split_ifs <;> simp

/-- Unfolding of an interior cell `(i+1, j+1)` of the affine tables: the
body of the fill loop. -/
lemma affTable_interior (sc : ScoreM) (x y : List Char) (i j : Nat) :
    affTable sc x y (i + 1) (j + 1) =
      (let cur := affTable sc x y (i + 1) j
       let nw := affTable sc x y i j
       let no := affTable sc x y i (j + 1)
       let s : ℤ := sc.sub (x.getD i '?') (y.getD j '?')
       let bm := pick3 (nw.mS + (s : WithBot ℤ)) (nw.iS + (s : WithBot ℤ))
         (nw.dS + (s : WithBot ℤ))
       let bi := pick2 (cur.mS + (sc.alpha : WithBot ℤ))
         (cur.iS + (sc.beta : WithBot ℤ)) 0 1
       let bd := pick2 (no.mS + (sc.alpha : WithBot ℤ))
         (no.dS + (sc.beta : WithBot ℤ)) 0 2
       let bf := pick3 bm.1 bi.1 bd.1
       ⟨bm.1, bi.1, bd.1,
         some (bm.2, i, j), some (bi.2, i + 1, j), some (bd.2, i, j + 1),
         bf.1, some (bf.2, i + 1, j + 1)⟩) := rfl

lemma affTable_row0_succ (sc : ScoreM) (x y : List Char) (j : Nat) :
    affTable sc x y 0 (j + 1) =
      ⟨⊥, ((sc.alpha + (j : ℤ) * sc.beta : ℤ) : WithBot ℤ), ⊥,
        none, some (1, 0, j), none, ⊥, none⟩ := rfl

lemma affTable_col0_succ (sc : ScoreM) (x y : List Char) (i : Nat) :
    affTable sc x y (i + 1) 0 =
      ⟨⊥, ⊥, ((sc.alpha + (i : ℤ) * sc.beta : ℤ) : WithBot ℤ),
        none, none, some (2, i, 0), ⊥, none⟩ := rfl

lemma affTable_origin (sc : ScoreM) (x y : List Char) :
    affTable sc x y 0 0 =
      ⟨(0 : ℤ), ⊥, ⊥, none, none, none, (0 : ℤ), none⟩ := rfl

/-!
## Claim theorems
-/

/-- C1: for every pair of sequences and every scoring model, at every
interior cell `(i+1, j+1)` of the affine fill (`1 ≤ i+1 ≤ m`,
`1 ≤ j+1 ≤ n`): the Match score is the maximum over the three states of the
diagonal predecessor's score plus the substitution score, with the stored
predecessor a maximising state at `(i, j)`; the Insertion score is
`max(Match[i+1][j] + alpha, Insertion[i+1][j] + beta)` with a maximising
predecessor at `(i+1, j)` whose state is never Deletion; and symmetrically
the Deletion score is `max(Match[i][j+1] + alpha, Deletion[i][j+1] + beta)`
with a maximising predecessor at `(i, j+1)` whose state is never
Insertion. -/
theorem c1_affine_fill_recurrence (sc : ScoreM) (x y : List Char) (i j : Nat)
    (hi : i < x.length) (hj : j < y.length) :
    ((affTable sc x y (i + 1) (j + 1)).mS =
        max (max ((affTable sc x y i j).mS +
            ((sc.sub (x.getD i '?') (y.getD j '?') : ℤ) : WithBot ℤ))
          ((affTable sc x y i j).iS +
            ((sc.sub (x.getD i '?') (y.getD j '?') : ℤ) : WithBot ℤ)))
          ((affTable sc x y i j).dS +
            ((sc.sub (x.getD i '?') (y.getD j '?') : ℤ) : WithBot ℤ)) ∧
      ∃ p, p ≤ 2 ∧ (affTable sc x y (i + 1) (j + 1)).mP = some (p, i, j) ∧
        stSc (affTable sc x y) p i j +
            ((sc.sub (x.getD i '?') (y.getD j '?') : ℤ) : WithBot ℤ) =
          (affTable sc x y (i + 1) (j + 1)).mS) ∧
    ((affTable sc x y (i + 1) (j + 1)).iS =
        max ((affTable sc x y (i + 1) j).mS + ((sc.alpha : ℤ) : WithBot ℤ))
          ((affTable sc x y (i + 1) j).iS + ((sc.beta : ℤ) : WithBot ℤ)) ∧
      ∃ q, q ≤ 1 ∧ (affTable sc x y (i + 1) (j + 1)).iP =
          some (q, i + 1, j) ∧
        stSc (affTable sc x y) q (i + 1) j +
            (((if q = 0 then sc.alpha else sc.beta) : ℤ) : WithBot ℤ) =
          (affTable sc x y (i + 1) (j + 1)).iS) ∧
    ((affTable sc x y (i + 1) (j + 1)).dS =
        max ((affTable sc x y i (j + 1)).mS + ((sc.alpha : ℤ) : WithBot ℤ))
          ((affTable sc x y i (j + 1)).dS + ((sc.beta : ℤ) : WithBot ℤ)) ∧
      ∃ r, (r = 0 ∨ r = 2) ∧ (affTable sc x y (i + 1) (j + 1)).dP =
          some (r, i, j + 1) ∧
        stSc (affTable sc x y) r i (j + 1) +
            (((if r = 0 then sc.alpha else sc.beta) : ℤ) : WithBot ℤ) =
          (affTable sc x y (i + 1) (j + 1)).dS) := by
  rw [affTable_interior]
  simp only []
  refine ⟨⟨?_, ?_⟩, ⟨?_, ?_⟩, ?_, ?_⟩
  · exact pick3_fst _ _ _
  · rcases pick3_attains
        ((affTable sc x y i j).mS +
          ((sc.sub (x.getD i '?') (y.getD j '?') : ℤ) : WithBot ℤ))
        ((affTable sc x y i j).iS +
          ((sc.sub (x.getD i '?') (y.getD j '?') : ℤ) : WithBot ℤ))
        ((affTable sc x y i j).dS +
          ((sc.sub (x.getD i '?') (y.getD j '?') : ℤ) : WithBot ℤ)) with
      ⟨h2, h1⟩ | ⟨h2, h1⟩ | ⟨h2, h1⟩
    · exact ⟨0, by omega, by rw [h2], by rw [h1]; rfl⟩
    · exact ⟨1, by omega, by rw [h2], by rw [h1]; rfl⟩
    · exact ⟨2, by omega, by rw [h2], by rw [h1]; rfl⟩
  · exact pick2_fst _ _ _ _
  · rcases pick2_attains ((affTable sc x y (i + 1) j).mS +
        ((sc.alpha : ℤ) : WithBot ℤ))
        ((affTable sc x y (i + 1) j).iS + ((sc.beta : ℤ) : WithBot ℤ)) 0 1 with
      ⟨h2, h1⟩ | ⟨h2, h1⟩
    · exact ⟨0, by omega, by rw [h2], by rw [h1]; rfl⟩
    · exact ⟨1, by omega, by rw [h2], by rw [h1]; rfl⟩
  · exact pick2_fst _ _ _ _
  · rcases pick2_attains ((affTable sc x y i (j + 1)).mS +
        ((sc.alpha : ℤ) : WithBot ℤ))
        ((affTable sc x y i (j + 1)).dS + ((sc.beta : ℤ) : WithBot ℤ)) 0 2 with
      ⟨h2, h1⟩ | ⟨h2, h1⟩
    · exact ⟨0, Or.inl rfl, by rw [h2], by rw [h1]; rfl⟩
    · exact ⟨2, Or.inr rfl, by rw [h2], by rw [h1]; rfl⟩

/-- Witness for C1 at a concrete interior cell. -/
theorem c1_affine_fill_recurrence_witness :
    (0 : Nat) < (['A', 'C'] : List Char).length ∧
    (0 : Nat) < (['A', 'G', 'C'] : List Char).length ∧
    ((affTable ⟨fun a b => if a = b then 2 else -1, -2, -1⟩
        ['A', 'C'] ['A', 'G', 'C'] 1 1).mS =
      max (max ((affTable ⟨fun a b => if a = b then 2 else -1, -2, -1⟩
          ['A', 'C'] ['A', 'G', 'C'] 0 0).mS + ((2 : ℤ) : WithBot ℤ))
        ((affTable ⟨fun a b => if a = b then 2 else -1, -2, -1⟩
          ['A', 'C'] ['A', 'G', 'C'] 0 0).iS + ((2 : ℤ) : WithBot ℤ)))
        ((affTable ⟨fun a b => if a = b then 2 else -1, -2, -1⟩
          ['A', 'C'] ['A', 'G', 'C'] 0 0).dS + ((2 : ℤ) : WithBot ℤ))) := by
  refine ⟨by decide, by decide, ?_⟩
  have h := c1_affine_fill_recurrence
    ⟨fun a b => if a = b then 2 else -1, -2, -1⟩
    ['A', 'C'] ['A', 'G', 'C'] 0 0 (by decide) (by decide)
  exact h.1.1

/-- C2: on X = "AC", Y = "AGC" with substitution score 2 for equal symbols
and -1 otherwise, gap open -2 and gap extension -1, the affine engine (fill
followed by traceback) returns the aligned strings "A-C" and "AGC" and the
final optimal score 2. -/
theorem c2_concrete_scenario :
    traceback_alignment_from_f_table ['A', 'C'] ['A', 'G', 'C']
      ⟨fun a b => if a = b then 2 else -1, -2, -1⟩ =
    some (['A', '-', 'C'], ['A', 'G', 'C'],
      [(0, 0, 0), (1, 1, 0), (1, 2, 1), (2, 3, 0)],
      ((2 : ℤ) : WithBot ℤ)) := by
  decide

/-- C3 (code bug): aligning X = "A" against the empty sequence with
alpha = -2, beta = -1 does NOT complete: the fill leaves
`f_score_table[1][0] = -inf` and `f_prev_table[1][0] = None` (only interior
cells of the final tables are ever written), so the traceback's unpacking
of `f_prev_table[m][n]` raises and no alignment is returned — even though
the deletion table holds the claimed score `alpha + 0*beta = -2`.  Two
empty sequences likewise crash (`f_prev_table[0][0]` is also `None`),
although `f_score_table[0][0] = 0`. -/
theorem c3_empty_sequence_bug :
    traceback_alignment_from_f_table ['A'] [] ⟨fun _ _ => 0, -2, -1⟩ =
      none ∧
    (affTable ⟨fun _ _ => 0, -2, -1⟩ ['A'] [] 1 0).fS = ⊥ ∧
    (affTable ⟨fun _ _ => 0, -2, -1⟩ ['A'] [] 1 0).fP = none ∧
    (affTable ⟨fun _ _ => 0, -2, -1⟩ ['A'] [] 1 0).dS =
      ((-2 : ℤ) : WithBot ℤ) ∧
    traceback_alignment_from_f_table [] [] ⟨fun _ _ => 0, -2, -1⟩ =
      none ∧
    (affTable ⟨fun _ _ => 0, -2, -1⟩ [] [] 0 0).fS = ((0 : ℤ) : WithBot ℤ) := by
  refine ⟨by decide, by decide, by decide, by decide, by decide, by decide⟩

/-- C5 counterexample: on X = "A", Y = "AA" with substitution score 2 for
equal symbols and -1 otherwise, alpha = -2, beta = -1, the Match and
Insertion scores tie at the final cell (both 0), and the final-cell
selection picks Insertion (state 1), not Match — refuting the claimed
single fixed priority order Match > Insert > Delete. -/
theorem c5_tie_break_counterexample :
    (affTable ⟨fun a b => if a = b then 2 else -1, -2, -1⟩
        ['A'] ['A', 'A'] 1 2).mS =
      (affTable ⟨fun a b => if a = b then 2 else -1, -2, -1⟩
        ['A'] ['A', 'A'] 1 2).iS ∧
    (affTable ⟨fun a b => if a = b then 2 else -1, -2, -1⟩
        ['A'] ['A', 'A'] 1 2).fP = some (1, 1, 2) := by
  refine ⟨by decide, by decide⟩

/-- C5 (amended): every tie is broken deterministically, and the stored
score is the maximum of the tied candidates (so the optimal score does not
depend on the choice), but the priority order differs by site instead of
being the single declared order Match > Insert > Delete: the Match
recurrence and the final-cell selection pick the HIGHEST state index
attaining the maximum (Deletion > Insertion > Match, from Python tuple
comparison), while the Insertion and Deletion recurrences prefer the
transition from Match over the gap extension. -/
theorem c5_tie_break_amended (sc : ScoreM) (x y : List Char) (i j : Nat) :
    ((affTable sc x y (i + 1) (j + 1)).fS =
        max (max ((affTable sc x y (i + 1) (j + 1)).mS)
          ((affTable sc x y (i + 1) (j + 1)).iS))
          ((affTable sc x y (i + 1) (j + 1)).dS) ∧
      (affTable sc x y (i + 1) (j + 1)).fP =
        some ((if (affTable sc x y (i + 1) (j + 1)).dS ≥
                  (affTable sc x y (i + 1) (j + 1)).mS ∧
                (affTable sc x y (i + 1) (j + 1)).dS ≥
                  (affTable sc x y (i + 1) (j + 1)).iS then 2
          else if (affTable sc x y (i + 1) (j + 1)).iS ≥
                  (affTable sc x y (i + 1) (j + 1)).mS then 1
          else 0), i + 1, j + 1) ∧
      (if (affTable sc x y (i + 1) (j + 1)).dS ≥
            (affTable sc x y (i + 1) (j + 1)).mS ∧
          (affTable sc x y (i + 1) (j + 1)).dS ≥
            (affTable sc x y (i + 1) (j + 1)).iS then
        (affTable sc x y (i + 1) (j + 1)).dS
      else if (affTable sc x y (i + 1) (j + 1)).iS ≥
            (affTable sc x y (i + 1) (j + 1)).mS then
        (affTable sc x y (i + 1) (j + 1)).iS
      else (affTable sc x y (i + 1) (j + 1)).mS) =
        (affTable sc x y (i + 1) (j + 1)).fS) ∧
    (affTable sc x y (i + 1) (j + 1)).iP =
      some ((if (affTable sc x y (i + 1) j).mS + ((sc.alpha : ℤ) : WithBot ℤ) ≥
                (affTable sc x y (i + 1) j).iS + ((sc.beta : ℤ) : WithBot ℤ)
             then 0 else 1), i + 1, j) ∧
    (affTable sc x y (i + 1) (j + 1)).dP =
      some ((if (affTable sc x y i (j + 1)).mS + ((sc.alpha : ℤ) : WithBot ℤ) ≥
                (affTable sc x y i (j + 1)).dS + ((sc.beta : ℤ) : WithBot ℤ)
             then 0 else 2), i, j + 1) ∧
    (affTable sc x y (i + 1) (j + 1)).mP =
      some ((if (affTable sc x y i j).dS +
                ((sc.sub (x.getD i '?') (y.getD j '?') : ℤ) : WithBot ℤ) ≥
                (affTable sc x y i j).mS +
                ((sc.sub (x.getD i '?') (y.getD j '?') : ℤ) : WithBot ℤ) ∧
              (affTable sc x y i j).dS +
                ((sc.sub (x.getD i '?') (y.getD j '?') : ℤ) : WithBot ℤ) ≥
                (affTable sc x y i j).iS +
                ((sc.sub (x.getD i '?') (y.getD j '?') : ℤ) : WithBot ℤ)
             then 2
             else if (affTable sc x y i j).iS +
                ((sc.sub (x.getD i '?') (y.getD j '?') : ℤ) : WithBot ℤ) ≥
                (affTable sc x y i j).mS +
                ((sc.sub (x.getD i '?') (y.getD j '?') : ℤ) : WithBot ℤ)
             then 1 else 0), i, j) := by
  have h1 : (affTable sc x y (i + 1) (j + 1)).fS =
      (pick3 (affTable sc x y (i + 1) (j + 1)).mS
        (affTable sc x y (i + 1) (j + 1)).iS
        (affTable sc x y (i + 1) (j + 1)).dS).1 := rfl
  have h2 : (affTable sc x y (i + 1) (j + 1)).fP =
      some ((pick3 (affTable sc x y (i + 1) (j + 1)).mS
        (affTable sc x y (i + 1) (j + 1)).iS
        (affTable sc x y (i + 1) (j + 1)).dS).2, i + 1, j + 1) := rfl
  have h3 : (affTable sc x y (i + 1) (j + 1)).iP =
      some ((pick2 ((affTable sc x y (i + 1) j).mS + ((sc.alpha : ℤ) : WithBot ℤ))
        ((affTable sc x y (i + 1) j).iS + ((sc.beta : ℤ) : WithBot ℤ)) 0 1).2,
        i + 1, j) := rfl
  have h4 : (affTable sc x y (i + 1) (j + 1)).dP =
      some ((pick2 ((affTable sc x y i (j + 1)).mS + ((sc.alpha : ℤ) : WithBot ℤ))
        ((affTable sc x y i (j + 1)).dS + ((sc.beta : ℤ) : WithBot ℤ)) 0 2).2,
        i, j + 1) := rfl
  have h5 : (affTable sc x y (i + 1) (j + 1)).mP =
      some ((pick3
        ((affTable sc x y i j).mS +
          ((sc.sub (x.getD i '?') (y.getD j '?') : ℤ) : WithBot ℤ))
        ((affTable sc x y i j).iS +
          ((sc.sub (x.getD i '?') (y.getD j '?') : ℤ) : WithBot ℤ))
        ((affTable sc x y i j).dS +
          ((sc.sub (x.getD i '?') (y.getD j '?') : ℤ) : WithBot ℤ))).2,
        i, j) := rfl
  refine ⟨⟨?_, ?_, ?_⟩, ?_, ?_, ?_⟩
  · rw [h1, pick3_fst]
  · rw [h2, pick3_snd_eq]
  · rw [pick3_sel_val, h1]
  · rw [h3, pick2_snd_eq]
  · rw [h4, pick2_snd_eq]
  · rw [h5, pick3_snd_eq]

/-- C9 counterexample: with alpha and beta present but every substitution
entry absent, aligning X = "A" with Y = "A" raises at the first fill-loop
iteration `(1,1)` (line 125 of the source), i.e. AFTER the tables have been
allocated and their borders initialised — refuting "aborts fatally before
any table work is performed" for missing substitution entries. -/
theorem c9_missing_entry_counterexample :
    fill_dp_table_checked ['A'] ['A']
      ⟨some (-2), some (-1), fun _ _ => none⟩ =
      Except.error (FillErr.missingSubst 1 1) ∧
    raisesBeforeTableWork (FillErr.missingSubst 1 1) = false := by
  exact ⟨rfl, rfl⟩

/-- C9 (amended): a scoring model missing a gap parameter makes the fill
raise before any table work; a model missing a substitution entry needed by
the inputs also surfaces the error to the caller with no result, but the
raise happens at the first row-major loop position needing the entry,
inside the fill loop, after tables are allocated and borders initialised;
when nothing is missing the fill returns the filled tables. -/
theorem c9_missing_entry_amended (x y : List Char) (sc : PScoreM) :
    (sc.alpha = none →
      fill_dp_table_checked x y sc = Except.error FillErr.missingAlpha ∧
      raisesBeforeTableWork FillErr.missingAlpha = true) ∧
    (∀ a, sc.alpha = some a → sc.beta = none →
      fill_dp_table_checked x y sc = Except.error FillErr.missingBeta ∧
      raisesBeforeTableWork FillErr.missingBeta = true) ∧
    (∀ a b i j, sc.alpha = some a → sc.beta = some b →
      firstMissing sc x y = some (i, j) →
      fill_dp_table_checked x y sc =
        Except.error (FillErr.missingSubst i j) ∧
      raisesBeforeTableWork (FillErr.missingSubst i j) = false) ∧
    (∀ a b, sc.alpha = some a → sc.beta = some b →
      firstMissing sc x y = none →
      fill_dp_table_checked x y sc =
        Except.ok (affTable ⟨fun c d => (sc.sub c d).getD 0, a, b⟩ x y)) := by
  refine ⟨?_, ?_, ?_, ?_⟩
  · intro h
    unfold fill_dp_table_checked
    rw [h]
    exact ⟨rfl, rfl⟩
  · intro a ha hb
    unfold fill_dp_table_checked
    rw [ha, hb]
    exact ⟨rfl, rfl⟩
  · intro a b i j ha hb hf
    unfold fill_dp_table_checked
    rw [ha, hb, hf]
    exact ⟨rfl, rfl⟩
  · intro a b ha hb hf
    unfold fill_dp_table_checked
    rw [ha, hb, hf]

/-- Witness for C9 (amended) at a concrete model missing the entry
`(A, A)`. -/
theorem c9_missing_entry_amended_witness :
    (⟨some (-2), some (-1), fun _ _ => none⟩ : PScoreM).alpha = some (-2) ∧
    (⟨some (-2), some (-1), fun _ _ => none⟩ : PScoreM).beta = some (-1) ∧
    firstMissing ⟨some (-2), some (-1), fun _ _ => none⟩ ['A'] ['A'] =
      some (1, 1) ∧
    fill_dp_table_checked ['A'] ['A']
        ⟨some (-2), some (-1), fun _ _ => none⟩ =
      Except.error (FillErr.missingSubst 1 1) ∧
    raisesBeforeTableWork (FillErr.missingSubst 1 1) = false := by
  refine ⟨rfl, rfl, rfl, ?_, ?_⟩
  · exact ((c9_missing_entry_amended ['A'] ['A']
      ⟨some (-2), some (-1), fun _ _ => none⟩).2.2.1 (-2) (-1) 1 1
      rfl rfl rfl).1
  · exact ((c9_missing_entry_amended ['A'] ['A']
      ⟨some (-2), some (-1), fun _ _ => none⟩).2.2.1 (-2) (-1) 1 1
      rfl rfl rfl).2

/-!
## Shape lemmas for interior affine cells
-/

lemma aff_mS_eq (sc : ScoreM) (x y : List Char) (i j : Nat) :
    (affTable sc x y (i + 1) (j + 1)).mS =
      (pick3
        ((affTable sc x y i j).mS +
          ((sc.sub (x.getD i '?') (y.getD j '?') : ℤ) : WithBot ℤ))
        ((affTable sc x y i j).iS +
          ((sc.sub (x.getD i '?') (y.getD j '?') : ℤ) : WithBot ℤ))
        ((affTable sc x y i j).dS +
          ((sc.sub (x.getD i '?') (y.getD j '?') : ℤ) : WithBot ℤ))).1 := rfl

lemma aff_iS_eq (sc : ScoreM) (x y : List Char) (i j : Nat) :
    (affTable sc x y (i + 1) (j + 1)).iS =
      (pick2 ((affTable sc x y (i + 1) j).mS + ((sc.alpha : ℤ) : WithBot ℤ))
        ((affTable sc x y (i + 1) j).iS + ((sc.beta : ℤ) : WithBot ℤ))
        0 1).1 := rfl

lemma aff_dS_eq (sc : ScoreM) (x y : List Char) (i j : Nat) :
    (affTable sc x y (i + 1) (j + 1)).dS =
      (pick2 ((affTable sc x y i (j + 1)).mS + ((sc.alpha : ℤ) : WithBot ℤ))
        ((affTable sc x y i (j + 1)).dS + ((sc.beta : ℤ) : WithBot ℤ))
        0 2).1 := rfl

lemma aff_fS_eq (sc : ScoreM) (x y : List Char) (i j : Nat) :
    (affTable sc x y (i + 1) (j + 1)).fS =
      (pick3 (affTable sc x y (i + 1) (j + 1)).mS
        (affTable sc x y (i + 1) (j + 1)).iS
        (affTable sc x y (i + 1) (j + 1)).dS).1 := rfl

lemma aff_mP_eq (sc : ScoreM) (x y : List Char) (i j : Nat) :
    (affTable sc x y (i + 1) (j + 1)).mP =
      some ((pick3
        ((affTable sc x y i j).mS +
          ((sc.sub (x.getD i '?') (y.getD j '?') : ℤ) : WithBot ℤ))
        ((affTable sc x y i j).iS +
          ((sc.sub (x.getD i '?') (y.getD j '?') : ℤ) : WithBot ℤ))
        ((affTable sc x y i j).dS +
          ((sc.sub (x.getD i '?') (y.getD j '?') : ℤ) : WithBot ℤ))).2,
        i, j) := rfl

lemma aff_iP_eq (sc : ScoreM) (x y : List Char) (i j : Nat) :
    (affTable sc x y (i + 1) (j + 1)).iP =
      some ((pick2 ((affTable sc x y (i + 1) j).mS + ((sc.alpha : ℤ) : WithBot ℤ))
        ((affTable sc x y (i + 1) j).iS + ((sc.beta : ℤ) : WithBot ℤ)) 0 1).2,
        i + 1, j) := rfl

lemma aff_dP_eq (sc : ScoreM) (x y : List Char) (i j : Nat) :
    (affTable sc x y (i + 1) (j + 1)).dP =
      some ((pick2 ((affTable sc x y i (j + 1)).mS + ((sc.alpha : ℤ) : WithBot ℤ))
        ((affTable sc x y i (j + 1)).dS + ((sc.beta : ℤ) : WithBot ℤ)) 0 2).2,
        i, j + 1) := rfl

lemma aff_fP_eq (sc : ScoreM) (x y : List Char) (i j : Nat) :
    (affTable sc x y (i + 1) (j + 1)).fP =
      some ((pick3 (affTable sc x y (i + 1) (j + 1)).mS
        (affTable sc x y (i + 1) (j + 1)).iS
        (affTable sc x y (i + 1) (j + 1)).dS).2, i + 1, j + 1) := rfl

/-- Pointwise monotonicity of all four affine score tables in the gap
parameters: lowering `alpha` and `beta` (making gaps costlier, scores being
rewards) can only lower every table entry. -/
lemma aff_mono (sub : Char → Char → ℤ) (a b a' b' : ℤ)
    (ha : a' ≤ a) (hb : b' ≤ b) (x y : List Char) : ∀ i j,
    (affTable ⟨sub, a', b'⟩ x y i j).mS ≤ (affTable ⟨sub, a, b⟩ x y i j).mS ∧
    (affTable ⟨sub, a', b'⟩ x y i j).iS ≤ (affTable ⟨sub, a, b⟩ x y i j).iS ∧
    (affTable ⟨sub, a', b'⟩ x y i j).dS ≤ (affTable ⟨sub, a, b⟩ x y i j).dS ∧
    (affTable ⟨sub, a', b'⟩ x y i j).fS ≤ (affTable ⟨sub, a, b⟩ x y i j).fS := by
  have hcoe : ((a' : ℤ) : WithBot ℤ) ≤ ((a : ℤ) : WithBot ℤ) :=
    WithBot.coe_le_coe.mpr ha
  have hcoeb : ((b' : ℤ) : WithBot ℤ) ≤ ((b : ℤ) : WithBot ℤ) :=
    WithBot.coe_le_coe.mpr hb
  intro i
  induction i with
  | zero =>
    intro j
    cases j with
    | zero => exact ⟨le_refl _, le_refl _, le_refl _, le_refl _⟩
    | succ j =>
      refine ⟨le_refl _, ?_, le_refl _, le_refl _⟩
      show (((a' + (j : ℤ) * b' : ℤ)) : WithBot ℤ) ≤
        (((a + (j : ℤ) * b : ℤ)) : WithBot ℤ)
      exact WithBot.coe_le_coe.mpr
        (add_le_add ha (mul_le_mul_of_nonneg_left hb (Int.natCast_nonneg j)))
  | succ i ih =>
    intro j
    induction j with
    | zero =>
      refine ⟨le_refl _, le_refl _, ?_, le_refl _⟩
      show (((a' + (i : ℤ) * b' : ℤ)) : WithBot ℤ) ≤
        (((a + (i : ℤ) * b : ℤ)) : WithBot ℤ)
      exact WithBot.coe_le_coe.mpr
        (add_le_add ha (mul_le_mul_of_nonneg_left hb (Int.natCast_nonneg i)))
    | succ j ihj =>
      obtain ⟨cm, ci, cd, _⟩ := ihj
      obtain ⟨wm, wi, wd, _⟩ := ih j
      obtain ⟨nm, ni, nd, _⟩ := ih (j + 1)
      have hmS : (affTable ⟨sub, a', b'⟩ x y (i + 1) (j + 1)).mS ≤
          (affTable ⟨sub, a, b⟩ x y (i + 1) (j + 1)).mS := by
        rw [aff_mS_eq, aff_mS_eq, pick3_fst, pick3_fst]
        exact max_le_max (max_le_max (add_le_add_right wm _)
          (add_le_add_right wi _)) (add_le_add_right wd _)
      have hiS : (affTable ⟨sub, a', b'⟩ x y (i + 1) (j + 1)).iS ≤
          (affTable ⟨sub, a, b⟩ x y (i + 1) (j + 1)).iS := by
        rw [aff_iS_eq, aff_iS_eq, pick2_fst, pick2_fst]
        exact max_le_max (add_le_add cm hcoe) (add_le_add ci hcoeb)
      have hdS : (affTable ⟨sub, a', b'⟩ x y (i + 1) (j + 1)).dS ≤
          (affTable ⟨sub, a, b⟩ x y (i + 1) (j + 1)).dS := by
        rw [aff_dS_eq, aff_dS_eq, pick2_fst, pick2_fst]
        exact max_le_max (add_le_add nm hcoe) (add_le_add nd hcoeb)
      refine ⟨hmS, hiS, hdS, ?_⟩
      rw [aff_fS_eq, aff_fS_eq, pick3_fst, pick3_fst]
      exact max_le_max (max_le_max hmS hiS) hdS

/-- C8: for fixed sequences and substitution entries, making gaps more
expensive (lowering `alpha` or `beta`) never increases the optimal final
score reported by the affine fill. -/
theorem c8_gap_penalty_monotonicity (sub : Char → Char → ℤ)
    (x y : List Char) (a b a' b' : ℤ) (ha : a' ≤ a) (hb : b' ≤ b) :
    (affTable ⟨sub, a', b'⟩ x y x.length y.length).fS ≤
      (affTable ⟨sub, a, b⟩ x y x.length y.length).fS :=
  (aff_mono sub a b a' b' ha hb x y x.length y.length).2.2.2

/-- Witness for C8 at concrete gap parameters. -/
theorem c8_gap_penalty_monotonicity_witness :
    ((-3 : ℤ) ≤ -2 ∧ (-2 : ℤ) ≤ -1) ∧
    (affTable ⟨fun a b => if a = b then 2 else -1, -3, -2⟩
        ['A', 'C'] ['A', 'G', 'C'] 2 3).fS ≤
      (affTable ⟨fun a b => if a = b then 2 else -1, -2, -1⟩
        ['A', 'C'] ['A', 'G', 'C'] 2 3).fS :=
  ⟨⟨by decide, by decide⟩,
    c8_gap_penalty_monotonicity (fun a b => if a = b then 2 else -1)
      ['A', 'C'] ['A', 'G', 'C'] (-2) (-1) (-3) (-2)
      (by decide) (by decide)⟩

/-!
## Shape lemmas for the linear tables and comparison with the affine fill
-/

lemma linTable_zz (sub : Char → Char → ℤ) (δ : ℤ) (x y : List Char) :
    (linTable sub δ x y 0 0).sS = 0 := rfl

lemma linTable_row0 (sub : Char → Char → ℤ) (δ : ℤ) (x y : List Char)
    (j : Nat) :
    (linTable sub δ x y 0 (j + 1)).sS = (linTable sub δ x y 0 j).sS + δ := rfl

lemma linTable_col0 (sub : Char → Char → ℤ) (δ : ℤ) (x y : List Char)
    (i : Nat) :
    (linTable sub δ x y (i + 1) 0).sS = (linTable sub δ x y i 0).sS + δ := rfl

lemma linTable_interior_sS (sub : Char → Char → ℤ) (δ : ℤ) (x y : List Char)
    (i j : Nat) :
    (linTable sub δ x y (i + 1) (j + 1)).sS =
      max (max ((linTable sub δ x y i j).sS +
          sub (x.getD i '?') (y.getD j '?'))
        ((linTable sub δ x y i (j + 1)).sS + δ))
        ((linTable sub δ x y (i + 1) j).sS + δ) := rfl

lemma lin_row0_closed (sub : Char → Char → ℤ) (δ : ℤ) (x y : List Char) :
    ∀ j, (linTable sub δ x y 0 j).sS = (j : ℤ) * δ := by
  intro j
  induction j with
  | zero => simp [linTable_zz]
  | succ j ih =>
    rw [linTable_row0, ih]
    push_cast
    ring

lemma lin_col0_closed (sub : Char → Char → ℤ) (δ : ℤ) (x y : List Char) :
    ∀ i, (linTable sub δ x y i 0).sS = (i : ℤ) * δ := by
  intro i
  induction i with
  | zero => simp [linTable_zz]
  | succ i ih =>
    rw [linTable_col0, ih]
    push_cast
    ring

/-- With `alpha = beta = delta`, every affine table entry is bounded by the
linear-gap score of the same cell: the affine three-state model optimises
over a subset of the paths the linear model allows (gap-to-gap switches are
excluded), and its unwritten border cells stay at `-inf`. -/
lemma aff_le_lin (sub : Char → Char → ℤ) (δ : ℤ) (x y : List Char) : ∀ i j,
    (affTable ⟨sub, δ, δ⟩ x y i j).mS ≤
      ((linTable sub δ x y i j).sS : WithBot ℤ) ∧
    (affTable ⟨sub, δ, δ⟩ x y i j).iS ≤
      ((linTable sub δ x y i j).sS : WithBot ℤ) ∧
    (affTable ⟨sub, δ, δ⟩ x y i j).dS ≤
      ((linTable sub δ x y i j).sS : WithBot ℤ) ∧
    (affTable ⟨sub, δ, δ⟩ x y i j).fS ≤
      ((linTable sub δ x y i j).sS : WithBot ℤ) := by
  intro i
  induction i with
  | zero =>
    intro j
    cases j with
    | zero => exact ⟨le_refl _, bot_le, bot_le, le_refl _⟩
    | succ j =>
      refine ⟨bot_le, ?_, bot_le, bot_le⟩
      show (((δ + (j : ℤ) * δ : ℤ)) : WithBot ℤ) ≤ _
      rw [lin_row0_closed]
      exact WithBot.coe_le_coe.mpr (le_of_eq (by push_cast; ring))
  | succ i ih =>
    intro j
    induction j with
    | zero =>
      refine ⟨bot_le, bot_le, ?_, bot_le⟩
      show (((δ + (i : ℤ) * δ : ℤ)) : WithBot ℤ) ≤ _
      rw [lin_col0_closed]
      exact WithBot.coe_le_coe.mpr (le_of_eq (by push_cast; ring))
    | succ j ihj =>
      obtain ⟨cm, ci, _, _⟩ := ihj
      obtain ⟨wm, wi, wd, _⟩ := ih j
      obtain ⟨nm, _, nd, _⟩ := ih (j + 1)
      have hmo : ((linTable sub δ x y i j).sS +
            sub (x.getD i '?') (y.getD j '?') : ℤ) ≤
          (linTable sub δ x y (i + 1) (j + 1)).sS := by
        rw [linTable_interior_sS]
        exact le_trans (le_max_left _ _) (le_max_left _ _)
      have hde : ((linTable sub δ x y i (j + 1)).sS + δ : ℤ) ≤
          (linTable sub δ x y (i + 1) (j + 1)).sS := by
        rw [linTable_interior_sS]
        exact le_trans (le_max_right _ _) (le_max_left _ _)
      have hio : ((linTable sub δ x y (i + 1) j).sS + δ : ℤ) ≤
          (linTable sub δ x y (i + 1) (j + 1)).sS := by
        rw [linTable_interior_sS]
        exact le_max_right _ _
      have hmS : (affTable ⟨sub, δ, δ⟩ x y (i + 1) (j + 1)).mS ≤
          ((linTable sub δ x y (i + 1) (j + 1)).sS : WithBot ℤ) := by
        rw [aff_mS_eq, pick3_fst]
        refine max_le (max_le ?_ ?_) ?_ <;>
          refine le_trans (add_le_add_right (by assumption) _) ?_ <;>
          · rw [← WithBot.coe_add]
            exact WithBot.coe_le_coe.mpr hmo
      have hiS : (affTable ⟨sub, δ, δ⟩ x y (i + 1) (j + 1)).iS ≤
          ((linTable sub δ x y (i + 1) (j + 1)).sS : WithBot ℤ) := by
        rw [aff_iS_eq, pick2_fst]
        refine max_le ?_ ?_ <;>
          refine le_trans (add_le_add_right (by assumption) _) ?_ <;>
          · rw [← WithBot.coe_add]
            exact WithBot.coe_le_coe.mpr hio
      have hdS : (affTable ⟨sub, δ, δ⟩ x y (i + 1) (j + 1)).dS ≤
          ((linTable sub δ x y (i + 1) (j + 1)).sS : WithBot ℤ) := by
        rw [aff_dS_eq, pick2_fst]
        refine max_le ?_ ?_ <;>
          refine le_trans (add_le_add_right (by assumption) _) ?_ <;>
          · rw [← WithBot.coe_add]
            exact WithBot.coe_le_coe.mpr hde
      refine ⟨hmS, hiS, hdS, ?_⟩
      rw [aff_fS_eq, pick3_fst]
      exact max_le (max_le hmS hiS) hdS

/-- C6 counterexample: X = "A", Y = "G", substitution score -10 for the
pair (A, G), and alpha = beta = delta = -1.  The affine engine's final
score is -10 (the three-state model cannot chain a deletion with an
insertion), while the linear-gap engine scores -2 by using both gaps, so
setting `alpha = beta` does NOT recover linear-gap behaviour. -/
theorem c6_linear_gap_counterexample :
    (affTable ⟨fun _ _ => -10, -1, -1⟩ ['A'] ['G'] 1 1).fS =
      ((-10 : ℤ) : WithBot ℤ) ∧
    (linTable (fun _ _ => -10) (-1) ['A'] ['G'] 1 1).sS = -2 ∧
    ¬((affTable ⟨fun _ _ => -10, -1, -1⟩ ['A'] ['G'] 1 1).fS =
      (((linTable (fun _ _ => -10) (-1) ['A'] ['G'] 1 1).sS : ℤ) :
        WithBot ℤ)) := by
  refine ⟨by decide, by decide, by decide⟩

/-- C6 (amended): with `alpha = beta = delta` and the same substitution
entries, the affine engine's final score never EXCEEDS the linear-gap
engine's final score; it can be strictly smaller, because the three-state
affine recurrence forbids the gap-to-gap switches (Insertion after
Deletion and vice versa) that the linear recurrence allows, so the linear
script is not redundant. -/
theorem c6_linear_gap_refinement_amended (sc : ScoreM)
    (sub : Char → Char → ℤ) (δ : ℤ) (x y : List Char)
    (hs : sc.sub = sub) (hα : sc.alpha = δ) (hβ : sc.beta = δ) :
    (affTable sc x y x.length y.length).fS ≤
      ((linTable sub δ x y x.length y.length).sS : WithBot ℤ) := by
  obtain ⟨f, a, b⟩ := sc
  cases hs
  cases hα
  cases hβ
  exact (aff_le_lin f a x y x.length y.length).2.2.2

/-- Witness for C6 (amended) at the counterexample input. -/
theorem c6_linear_gap_refinement_amended_witness :
    (⟨fun _ _ => (-10 : ℤ), -1, -1⟩ : ScoreM).sub = (fun _ _ => (-10 : ℤ)) ∧
    (⟨fun _ _ => (-10 : ℤ), -1, -1⟩ : ScoreM).alpha = -1 ∧
    (⟨fun _ _ => (-10 : ℤ), -1, -1⟩ : ScoreM).beta = -1 ∧
    (affTable ⟨fun _ _ => -10, -1, -1⟩ ['A'] ['G'] 1 1).fS ≤
      ((linTable (fun _ _ => -10) (-1) ['A'] ['G'] 1 1).sS : WithBot ℤ) :=
  ⟨rfl, rfl, rfl,
    c6_linear_gap_refinement_amended ⟨fun _ _ => -10, -1, -1⟩
      (fun _ _ => -10) (-1) ['A'] ['G'] rfl rfl rfl⟩

/-!
## Termination and origin of the affine traceback
-/

lemma add_coe_ne_bot {a : WithBot ℤ} {s : ℤ}
    (h : a + (s : WithBot ℤ) ≠ ⊥) : a ≠ ⊥ :=
  fun hb => h (by rw [hb, WithBot.bot_add])

lemma ne_bot_mono {a b : WithBot ℤ} (h : a ≠ ⊥) (hle : a ≤ b) : b ≠ ⊥ :=
  fun hb => h (le_bot_iff.mp (hb ▸ hle))

lemma pick2_snd_or (a b : WithBot ℤ) (sa sb : Nat) :
    (pick2 a b sa sb).2 = sa ∨ (pick2 a b sa sb).2 = sb := by
  unfold pick2
  split_ifs <;> simp

/-- If the Match value just computed from a diagonal cell is finite, the
state its predecessor entry selects has a finite score at that cell. -/
lemma pick3_state_ne_bot (t : Nat → Nat → AffCell) (s : ℤ) (i j : Nat)
    (h : (pick3 ((t i j).mS + (s : WithBot ℤ)) ((t i j).iS + (s : WithBot ℤ))
        ((t i j).dS + (s : WithBot ℤ))).1 ≠ ⊥) :
    stSc t (pick3 ((t i j).mS + (s : WithBot ℤ))
      ((t i j).iS + (s : WithBot ℤ)) ((t i j).dS + (s : WithBot ℤ))).2 i j ≠
      ⊥ := by
  rcases pick3_attains ((t i j).mS + (s : WithBot ℤ))
      ((t i j).iS + (s : WithBot ℤ)) ((t i j).dS + (s : WithBot ℤ)) with
    ⟨h2, h1⟩ | ⟨h2, h1⟩ | ⟨h2, h1⟩ <;> rw [h2] <;> rw [h1] at h
  · exact add_coe_ne_bot h
  · exact add_coe_ne_bot h
  · exact add_coe_ne_bot h

/-- Insertion analogue of `pick3_state_ne_bot`. -/
lemma pick2_state_ne_bot_i (t : Nat → Nat → AffCell) (al be : ℤ) (i j : Nat)
    (h : (pick2 ((t i j).mS + (al : WithBot ℤ))
        ((t i j).iS + (be : WithBot ℤ)) 0 1).1 ≠ ⊥) :
    stSc t (pick2 ((t i j).mS + (al : WithBot ℤ))
      ((t i j).iS + (be : WithBot ℤ)) 0 1).2 i j ≠ ⊥ := by
  rcases pick2_attains ((t i j).mS + (al : WithBot ℤ))
      ((t i j).iS + (be : WithBot ℤ)) 0 1 with ⟨h2, h1⟩ | ⟨h2, h1⟩ <;>
    rw [h2] <;> rw [h1] at h
  · exact add_coe_ne_bot h
  · exact add_coe_ne_bot h

/-- Deletion analogue of `pick3_state_ne_bot`. -/
lemma pick2_state_ne_bot_d (t : Nat → Nat → AffCell) (al be : ℤ) (i j : Nat)
    (h : (pick2 ((t i j).mS + (al : WithBot ℤ))
        ((t i j).dS + (be : WithBot ℤ)) 0 2).1 ≠ ⊥) :
    stSc t (pick2 ((t i j).mS + (al : WithBot ℤ))
      ((t i j).dS + (be : WithBot ℤ)) 0 2).2 i j ≠ ⊥ := by
  rcases pick2_attains ((t i j).mS + (al : WithBot ℤ))
      ((t i j).dS + (be : WithBot ℤ)) 0 2 with ⟨h2, h1⟩ | ⟨h2, h1⟩ <;>
    rw [h2] <;> rw [h1] at h
  · exact add_coe_ne_bot h
  · exact add_coe_ne_bot h

/-- At every cell at least one of the three state scores is finite, so the
final maximum is never `-inf`. -/
lemma aff_max3_ne_bot (sc : ScoreM) (x y : List Char) : ∀ i j,
    max (max (affTable sc x y i j).mS (affTable sc x y i j).iS)
      (affTable sc x y i j).dS ≠ ⊥ := by
  intro i
  induction i with
  | zero =>
    intro j
    cases j with
    | zero =>
      exact ne_bot_mono (WithBot.coe_ne_bot)
        (le_trans (le_max_left _ _) (le_max_left _ _))
    | succ j =>
      exact ne_bot_mono (WithBot.coe_ne_bot)
        (le_trans (le_max_right _ _) (le_max_left _ _))
  | succ i ih =>
    intro j
    induction j with
    | zero => exact ne_bot_mono (WithBot.coe_ne_bot) (le_max_right _ _)
    | succ j _ =>
      have h3 := ih j
      have hone : (affTable sc x y i j).mS ≠ ⊥ ∨
          (affTable sc x y i j).iS ≠ ⊥ ∨ (affTable sc x y i j).dS ≠ ⊥ := by
        by_contra hc
        push_neg at hc
        obtain ⟨h1, h2, h4⟩ := hc
        exact h3 (by rw [h1, h2, h4]; simp)
      have hadd : ∀ a : WithBot ℤ, a ≠ ⊥ →
          a + ((sc.sub (x.getD i '?') (y.getD j '?') : ℤ) : WithBot ℤ) ≠ ⊥ := by
        intro a ha hb
        rcases WithBot.add_eq_bot.mp hb with h | h
        · exact ha h
        · exact WithBot.coe_ne_bot h
      have hm : (affTable sc x y (i + 1) (j + 1)).mS ≠ ⊥ := by
        rw [aff_mS_eq, pick3_fst]
        rcases hone with h | h | h
        · exact ne_bot_mono (hadd _ h)
            (le_trans (le_max_left _ _) (le_max_left _ _))
        · exact ne_bot_mono (hadd _ h)
            (le_trans (le_max_right _ _) (le_max_left _ _))
        · exact ne_bot_mono (hadd _ h) (le_max_right _ _)
      exact ne_bot_mono hm (le_trans (le_max_left _ _) (le_max_left _ _))

/-- One iteration of the affine traceback from a live state: the
predecessor read succeeds, moves strictly closer to the origin, and lands
either on the origin or on another live state. -/
lemma aff_step (sc : ScoreM) (x y : List Char) (k i j : Nat) (hk : k ≤ 2)
    (hne : ¬(i = 0 ∧ j = 0))
    (hfin : stSc (affTable sc x y) k i j ≠ ⊥) :
    ∃ k' i' j', predRead (affTable sc x y) k i j = some (k', i', j') ∧
      k' ≤ 2 ∧ i' + j' < i + j ∧
      ((i' = 0 ∧ j' = 0) ∨ stSc (affTable sc x y) k' i' j' ≠ ⊥) := by
  interval_cases k
  · -- state 0 (Match)
    rcases i with _ | i <;> rcases j with _ | j
    · exact absurd ⟨rfl, rfl⟩ hne
    · exact absurd (by rw [show stSc (affTable sc x y) 0 0 (j + 1) =
        (affTable sc x y 0 (j + 1)).mS from rfl, affTable_row0_succ]) hfin
    · exact absurd (by rw [show stSc (affTable sc x y) 0 (i + 1) 0 =
        (affTable sc x y (i + 1) 0).mS from rfl, affTable_col0_succ]) hfin
    · have hfin' : (affTable sc x y (i + 1) (j + 1)).mS ≠ ⊥ := hfin
      rw [aff_mS_eq] at hfin'
      refine ⟨_, i, j, aff_mP_eq sc x y i j, pick3_snd_le _ _ _,
        by omega, Or.inr ?_⟩
      exact pick3_state_ne_bot (affTable sc x y) _ i j hfin'
  · -- state 1 (Insertion)
    rcases i with _ | i <;> rcases j with _ | j
    · exact absurd ⟨rfl, rfl⟩ hne
    · refine ⟨1, 0, j, by rw [show predRead (affTable sc x y) 1 0 (j + 1) =
        (affTable sc x y 0 (j + 1)).iP from rfl, affTable_row0_succ],
        by omega, by omega, ?_⟩
      rcases j with _ | j
      · exact Or.inl ⟨rfl, rfl⟩
      · refine Or.inr ?_
        rw [show stSc (affTable sc x y) 1 0 (j + 1) =
          (affTable sc x y 0 (j + 1)).iS from rfl, affTable_row0_succ]
        exact WithBot.coe_ne_bot
    · exact absurd (by rw [show stSc (affTable sc x y) 1 (i + 1) 0 =
        (affTable sc x y (i + 1) 0).iS from rfl, affTable_col0_succ]) hfin
    · have hfin' : (affTable sc x y (i + 1) (j + 1)).iS ≠ ⊥ := hfin
      rw [aff_iS_eq] at hfin'
      refine ⟨_, i + 1, j, aff_iP_eq sc x y i j, ?_, by omega, Or.inr ?_⟩
      · rcases pick2_snd_or ((affTable sc x y (i + 1) j).mS +
            ((sc.alpha : ℤ) : WithBot ℤ))
            ((affTable sc x y (i + 1) j).iS + ((sc.beta : ℤ) : WithBot ℤ))
            0 1 with h | h <;> omega
      · exact pick2_state_ne_bot_i (affTable sc x y) _ _ (i + 1) j hfin'
  · -- state 2 (Deletion)
    rcases i with _ | i <;> rcases j with _ | j
    · exact absurd ⟨rfl, rfl⟩ hne
    · exact absurd (by rw [show stSc (affTable sc x y) 2 0 (j + 1) =
        (affTable sc x y 0 (j + 1)).dS from rfl, affTable_row0_succ]) hfin
    · refine ⟨2, i, 0, by rw [show predRead (affTable sc x y) 2 (i + 1) 0 =
        (affTable sc x y (i + 1) 0).dP from rfl, affTable_col0_succ],
        by omega, by omega, ?_⟩
      rcases i with _ | i
      · exact Or.inl ⟨rfl, rfl⟩
      · refine Or.inr ?_
        rw [show stSc (affTable sc x y) 2 (i + 1) 0 =
          (affTable sc x y (i + 1) 0).dS from rfl, affTable_col0_succ]
        exact WithBot.coe_ne_bot
    · have hfin' : (affTable sc x y (i + 1) (j + 1)).dS ≠ ⊥ := hfin
      rw [aff_dS_eq] at hfin'
      refine ⟨_, i, j + 1, aff_dP_eq sc x y i j, ?_, by omega, Or.inr ?_⟩
      · rcases pick2_snd_or ((affTable sc x y i (j + 1)).mS +
            ((sc.alpha : ℤ) : WithBot ℤ))
            ((affTable sc x y i (j + 1)).dS + ((sc.beta : ℤ) : WithBot ℤ))
            0 2 with h | h <;> omega
      · exact pick2_state_ne_bot_d (affTable sc x y) _ _ i (j + 1) hfin'

/-- The affine traceback loop, started anywhere with a live state (or at
the origin) and given fuel at least `i + j`, terminates successfully: the
path it visits has at most `i + j + 1` cells and its last cell is the
origin `(0, 0)` in some state `≤ 2`. -/
lemma tb_ok (sc : ScoreM) (x y : List Char) : ∀ fuel k i j,
    i + j ≤ fuel → k ≤ 2 →
    ((i = 0 ∧ j = 0) ∨ stSc (affTable sc x y) k i j ≠ ⊥) →
    ∃ ax ay p, tbGo x y (affTable sc x y) fuel k i j = some (ax, ay, p) ∧
      p.length ≤ i + j + 1 ∧ ∃ ke, ke ≤ 2 ∧ p.getLast? = some (0, 0, ke) := by
  intro fuel
  induction fuel with
  | zero =>
    intro k i j hf hk _
    have hi : i = 0 := by omega
    have hj : j = 0 := by omega
    subst hi; subst hj
    exact ⟨[], [], [(0, 0, k)], by simp [tbGo], by simp, k, hk, rfl⟩
  | succ fuel ih =>
    intro k i j hf hk hinv
    by_cases hij : i = 0 ∧ j = 0
    · obtain ⟨hi, hj⟩ := hij
      subst hi; subst hj
      exact ⟨[], [], [(0, 0, k)], by simp [tbGo], by simp, k, hk, rfl⟩
    · have hfin : stSc (affTable sc x y) k i j ≠ ⊥ := by
        rcases hinv with h | h
        · exact absurd h hij
        · exact h
      obtain ⟨k', i', j', hpred, hk', hlt, hinv'⟩ :=
        aff_step sc x y k i j hk hij hfin
      obtain ⟨ax, ay, p, hgo, hlen, ke, hke, hlast⟩ :=
        ih k' i' j' (by omega) hk' hinv'
      have heq : tbGo x y (affTable sc x y) (fuel + 1) k i j =
          some ((if k = 0 then x.getD i' '?'
                 else if k = 1 then '-' else x.getD i' '?') :: ax,
                (if k = 0 then y.getD j' '?'
                 else if k = 1 then y.getD j' '?' else '-') :: ay,
                (i, j, k) :: p) := by
        simp only [tbGo, if_neg hij, hpred, hgo]
      refine ⟨_, _, (i, j, k) :: p, heq, ?_, ke, hke, ?_⟩
      · simp only [List.length_cons]
        omega
      · cases p with
        | nil => simp at hlast
        | cons q rest => rw [List.getLast?_cons_cons]; exact hlast

/-- The state selected at a cell by the final-table tie-break has a finite
score whenever the cell's best score is finite. -/
lemma pick3_cur_ne_bot (t : Nat → Nat → AffCell) (i j : Nat)
    (h : (pick3 (t i j).mS (t i j).iS (t i j).dS).1 ≠ ⊥) :
    stSc t (pick3 (t i j).mS (t i j).iS (t i j).dS).2 i j ≠ ⊥ := by
  rcases pick3_attains (t i j).mS (t i j).iS (t i j).dS with
    ⟨h2, h1⟩ | ⟨h2, h1⟩ | ⟨h2, h1⟩ <;> rw [h2] <;> rw [h1] at h <;> exact h

/-- C4 counterexample: on X = "A", Y = "GA" with substitution score 2 for
equal symbols and -1 otherwise, alpha = -2, beta = -1, the traceback
completes but its predecessor chain ends at `(InsertY, 0, 0)` (state 1),
not `(Match, 0, 0)`: the border predecessor entries are hardcoded to the
border state itself, so a chain entering row 0 keeps state 1 down to the
origin. -/
theorem c4_traceback_counterexample :
    traceback_alignment_from_f_table ['A'] ['G', 'A']
      ⟨fun a b => if a = b then 2 else -1, -2, -1⟩ =
    some (['-', 'A'], ['G', 'A'], [(0, 0, 1), (0, 1, 1), (1, 2, 0)],
      ((0 : ℤ) : WithBot ℤ)) ∧
    ((1 : Nat) ≠ 0) := by
  exact ⟨by decide, by decide⟩

/-- C4 (amended): on sequences of lengths `m, n ≥ 1` the traceback always
completes, its `while` loop runs at most `m + n` iterations (the visited
path has at most `m + n + 1` cells), and the chain ends with both indices
0 — but the state recorded at the origin is only guaranteed to be one of
the three states (it is `InsertY` or `DeleteX`, not `Match`, whenever the
chain goes through the hardcoded border predecessors). -/
theorem c4_traceback_termination_amended (sc : ScoreM) (x y : List Char)
    (hm : 1 ≤ x.length) (hn : 1 ≤ y.length) :
    ∃ ax ay p s,
      traceback_alignment_from_f_table x y sc = some (ax, ay, p, s) ∧
      p.length ≤ x.length + y.length + 1 ∧
      ∃ ke, ke ≤ 2 ∧ p.head? = some (0, 0, ke) := by
  obtain ⟨m, hm0⟩ : ∃ t, x.length = t + 1 := ⟨x.length - 1, by omega⟩
  obtain ⟨n, hn0⟩ : ∃ t, y.length = t + 1 := ⟨y.length - 1, by omega⟩
  have hbot : (pick3 (affTable sc x y (m + 1) (n + 1)).mS
      (affTable sc x y (m + 1) (n + 1)).iS
      (affTable sc x y (m + 1) (n + 1)).dS).1 ≠ ⊥ := by
    rw [pick3_fst]
    exact aff_max3_ne_bot sc x y (m + 1) (n + 1)
  have hlive := pick3_cur_ne_bot (affTable sc x y) (m + 1) (n + 1) hbot
  obtain ⟨ax, ay, p, hgo, hlen, ke, hke, hlast⟩ :=
    tb_ok sc x y ((m + 1) + (n + 1)) _ (m + 1) (n + 1) (le_refl _)
      (pick3_snd_le _ _ _) (Or.inr hlive)
  have hunf : traceback_alignment_from_f_table x y sc =
      match (affTable sc x y x.length y.length).fP with
      | none => none
      | some (k, i, j) =>
        match tbGo x y (affTable sc x y) (x.length + y.length) k i j with
        | none => none
        | some (ax, ay, p) =>
          some (ax.reverse, ay.reverse, p.reverse,
            (affTable sc x y x.length y.length).fS) := rfl
  refine ⟨ax.reverse, ay.reverse, p.reverse,
    (affTable sc x y x.length y.length).fS, ?_, ?_, ke, hke, ?_⟩
  · rw [hunf, hm0, hn0, aff_fP_eq]
    simp only [hgo]
  · rw [List.length_reverse, hm0, hn0]
    omega
  · rw [List.head?_reverse]
    exact hlast

/-- Witness for C4 (amended) at a concrete input. -/
theorem c4_traceback_termination_amended_witness :
    1 ≤ (['A'] : List Char).length ∧
    1 ≤ (['G', 'A'] : List Char).length ∧
    ∃ ax ay p s,
      traceback_alignment_from_f_table ['A'] ['G', 'A']
        ⟨fun a b => if a = b then 2 else -1, -2, -1⟩ = some (ax, ay, p, s) ∧
      p.length ≤ (['A'] : List Char).length +
        (['G', 'A'] : List Char).length + 1 ∧
      ∃ ke, ke ≤ 2 ∧ p.head? = some (0, 0, ke) :=
  ⟨by decide, by decide,
    c4_traceback_termination_amended
      ⟨fun a b => if a = b then 2 else -1, -2, -1⟩ ['A'] ['G', 'A']
      (by decide) (by decide)⟩

/-!
## Aligned strings reconstruct the inputs
-/

/-- Unfolding of one active iteration of the affine traceback loop. -/
lemma tbGo_succ_active (x y : List Char) (t : Nat → Nat → AffCell)
    (fuel k i j : Nat) (hij : ¬(i = 0 ∧ j = 0)) :
    tbGo x y t (fuel + 1) k i j =
      match predRead t k i j with
      | none => none
      | some (k', i', j') =>
        match tbGo x y t fuel k' i' j' with
        | none => none
        | some (ax, ay, p) =>
          some ((if k = 0 then x.getD i' '?'
                 else if k = 1 then '-' else x.getD i' '?') :: ax,
                (if k = 0 then y.getD j' '?'
                 else if k = 1 then y.getD j' '?' else '-') :: ay,
                (i, j, k) :: p) := by
  simp only [tbGo, if_neg hij]


lemma tbGo_done (x y : List Char) (t : Nat → Nat → AffCell)
    (fuel k : Nat) :
    tbGo x y t fuel k 0 0 = some ([], [], [(0, 0, k)]) := by
  cases fuel <;> simp [tbGo]

lemma take_succ_reverse {α : Type} (l : List α) (d : α) (i : Nat)
    (h : i < l.length) :
    (l.take (i + 1)).reverse = l.getD i d :: (l.take i).reverse := by
  rw [List.take_succ]
  simp [List.getD_eq_getElem?_getD, List.getElem?_eq_getElem h]

lemma getD_ne_gap {l : List Char} {i : Nat} (h : i < l.length)
    (hl : '-' ∉ l) : l.getD i '?' ≠ '-' := by
  have hm : l.getD i '?' ∈ l := by
    rw [List.getD_eq_getElem?_getD, List.getElem?_eq_getElem h]
    exact List.getElem_mem h
  exact fun hc => hl (hc ▸ hm)

/-- If the affine traceback loop completes from `(k, i, j)` with
`i ≤ |x|`, `j ≤ |y|`, and neither sequence contains the gap marker, the
emitted aligned fragments have equal length and de-gapping them yields
exactly the first `i` symbols of `x` (resp. `j` of `y`), reversed (the
fragments are accumulated in traceback order). -/
lemma tb_strings (sc : ScoreM) (x y : List Char)
    (hx : '-' ∉ x) (hy : '-' ∉ y) :
    ∀ fuel k i j ax ay p, i ≤ x.length → j ≤ y.length →
    tbGo x y (affTable sc x y) fuel k i j = some (ax, ay, p) →
    ax.length = ay.length ∧
    ax.filter (· ≠ '-') = (x.take i).reverse ∧
    ay.filter (· ≠ '-') = (y.take j).reverse := by
  intro fuel
  induction fuel with
  | zero =>
    intro k i j ax ay p hi hj hgo
    by_cases hij : i = 0 ∧ j = 0
    · obtain ⟨rfl, rfl⟩ := hij
      rw [tbGo_done] at hgo
      simp only [Option.some.injEq, Prod.mk.injEq] at hgo
      obtain ⟨rfl, rfl, rfl⟩ := hgo
      simp
    · simp only [tbGo, if_neg hij] at hgo
      cases hgo
  | succ fuel ih =>
    intro k i j ax ay p hi hj hgo
    by_cases hij : i = 0 ∧ j = 0
    · obtain ⟨rfl, rfl⟩ := hij
      rw [tbGo_done] at hgo
      simp only [Option.some.injEq, Prod.mk.injEq] at hgo
      obtain ⟨rfl, rfl, rfl⟩ := hgo
      simp
    · rw [tbGo_succ_active x y _ fuel k i j hij] at hgo
      rcases k with _ | _ | _ | k
      · -- state 0 (Match)
        rcases i with _ | i <;> rcases j with _ | j
        · exact absurd ⟨rfl, rfl⟩ hij
        · rw [show predRead (affTable sc x y) 0 0 (j + 1) =
            (affTable sc x y 0 (j + 1)).mP from rfl,
            affTable_row0_succ] at hgo
          simp only [] at hgo
          cases hgo
        · rw [show predRead (affTable sc x y) 0 (i + 1) 0 =
            (affTable sc x y (i + 1) 0).mP from rfl,
            affTable_col0_succ] at hgo
          simp only [] at hgo
          cases hgo
        · rw [show predRead (affTable sc x y) 0 (i + 1) (j + 1) =
            (affTable sc x y (i + 1) (j + 1)).mP from rfl,
            aff_mP_eq] at hgo
          simp only [] at hgo
          rcases hrec : tbGo x y (affTable sc x y) fuel
              (pick3 ((affTable sc x y i j).mS +
                ((sc.sub (x.getD i '?') (y.getD j '?') : ℤ) : WithBot ℤ))
              ((affTable sc x y i j).iS +
                ((sc.sub (x.getD i '?') (y.getD j '?') : ℤ) : WithBot ℤ))
              ((affTable sc x y i j).dS +
                ((sc.sub (x.getD i '?') (y.getD j '?') : ℤ) : WithBot ℤ))).2
              i j with _ | ⟨ax', ay', p'⟩ <;> rw [hrec] at hgo
          · cases hgo
          · simp only [Option.some.injEq, Prod.mk.injEq] at hgo
            obtain ⟨rfl, rfl, rfl⟩ := hgo
            obtain ⟨h1, h2, h3⟩ := ih _ i j ax' ay' p'
              (by omega) (by omega) hrec
            simp only [ne_eq, decide_not] at h2 h3
            have hxi : i < x.length := by omega
            have hyj : j < y.length := by omega
            refine ⟨by simp [h1], ?_, ?_⟩
            · rw [take_succ_reverse x '?' i hxi]
              have hne := getD_ne_gap hxi hx
              rw [List.getD_eq_getElem?_getD] at hne
              simp [List.filter_cons, hne, h2]
            · rw [take_succ_reverse y '?' j hyj]
              have hne2 := getD_ne_gap hyj hy
              rw [List.getD_eq_getElem?_getD] at hne2
              simp [List.filter_cons, hne2, h3]
      · -- state 1 (Insertion)
        rcases i with _ | i <;> rcases j with _ | j
        · exact absurd ⟨rfl, rfl⟩ hij
        · rw [show predRead (affTable sc x y) 1 0 (j + 1) =
            (affTable sc x y 0 (j + 1)).iP from rfl,
            affTable_row0_succ] at hgo
          simp only [] at hgo
          rcases hrec : tbGo x y (affTable sc x y) fuel 1 0 j with
            _ | ⟨ax', ay', p'⟩ <;> rw [hrec] at hgo
          · cases hgo
          · simp only [Option.some.injEq, Prod.mk.injEq] at hgo
            obtain ⟨rfl, rfl, rfl⟩ := hgo
            obtain ⟨h1, h2, h3⟩ := ih _ 0 j ax' ay' p'
              (by omega) (by omega) hrec
            simp only [ne_eq, decide_not] at h2 h3
            have hyj : j < y.length := by omega
            refine ⟨by simp [h1], ?_, ?_⟩
            · simp [List.filter_cons, h2]
            · rw [take_succ_reverse y '?' j hyj]
              have hne2 := getD_ne_gap hyj hy
              rw [List.getD_eq_getElem?_getD] at hne2
              simp [List.filter_cons, hne2, h3]
        · rw [show predRead (affTable sc x y) 1 (i + 1) 0 =
            (affTable sc x y (i + 1) 0).iP from rfl,
            affTable_col0_succ] at hgo
          simp only [] at hgo
          cases hgo
        · rw [show predRead (affTable sc x y) 1 (i + 1) (j + 1) =
            (affTable sc x y (i + 1) (j + 1)).iP from rfl,
            aff_iP_eq] at hgo
          simp only [] at hgo
          rcases hrec : tbGo x y (affTable sc x y) fuel
              (pick2 ((affTable sc x y (i + 1) j).mS +
                ((sc.alpha : ℤ) : WithBot ℤ))
              ((affTable sc x y (i + 1) j).iS +
                ((sc.beta : ℤ) : WithBot ℤ)) 0 1).2
              (i + 1) j with _ | ⟨ax', ay', p'⟩ <;> rw [hrec] at hgo
          · cases hgo
          · simp only [Option.some.injEq, Prod.mk.injEq] at hgo
            obtain ⟨rfl, rfl, rfl⟩ := hgo
            obtain ⟨h1, h2, h3⟩ := ih _ (i + 1) j ax' ay' p'
              (by omega) (by omega) hrec
            simp only [ne_eq, decide_not] at h2 h3
            have hyj : j < y.length := by omega
            refine ⟨by simp [h1], ?_, ?_⟩
            · simp [List.filter_cons, h2]
            · rw [take_succ_reverse y '?' j hyj]
              have hne2 := getD_ne_gap hyj hy
              rw [List.getD_eq_getElem?_getD] at hne2
              simp [List.filter_cons, hne2, h3]
      · -- state 2 (Deletion)
        rcases i with _ | i <;> rcases j with _ | j
        · exact absurd ⟨rfl, rfl⟩ hij
        · rw [show predRead (affTable sc x y) 2 0 (j + 1) =
            (affTable sc x y 0 (j + 1)).dP from rfl,
            affTable_row0_succ] at hgo
          simp only [] at hgo
          cases hgo
        · rw [show predRead (affTable sc x y) 2 (i + 1) 0 =
            (affTable sc x y (i + 1) 0).dP from rfl,
            affTable_col0_succ] at hgo
          simp only [] at hgo
          rcases hrec : tbGo x y (affTable sc x y) fuel 2 i 0 with
            _ | ⟨ax', ay', p'⟩ <;> rw [hrec] at hgo
          · cases hgo
          · simp only [Option.some.injEq, Prod.mk.injEq] at hgo
            obtain ⟨rfl, rfl, rfl⟩ := hgo
            obtain ⟨h1, h2, h3⟩ := ih _ i 0 ax' ay' p'
              (by omega) (by omega) hrec
            simp only [ne_eq, decide_not] at h2 h3
            have hxi : i < x.length := by omega
            refine ⟨by simp [h1], ?_, ?_⟩
            · rw [take_succ_reverse x '?' i hxi]
              have hne := getD_ne_gap hxi hx
              rw [List.getD_eq_getElem?_getD] at hne
              simp [List.filter_cons, hne, h2]
            · simp [List.filter_cons, h3]
        · rw [show predRead (affTable sc x y) 2 (i + 1) (j + 1) =
            (affTable sc x y (i + 1) (j + 1)).dP from rfl,
            aff_dP_eq] at hgo
          simp only [] at hgo
          rcases hrec : tbGo x y (affTable sc x y) fuel
              (pick2 ((affTable sc x y i (j + 1)).mS +
                ((sc.alpha : ℤ) : WithBot ℤ))
              ((affTable sc x y i (j + 1)).dS +
                ((sc.beta : ℤ) : WithBot ℤ)) 0 2).2
              i (j + 1) with _ | ⟨ax', ay', p'⟩ <;> rw [hrec] at hgo
          · cases hgo
          · simp only [Option.some.injEq, Prod.mk.injEq] at hgo
            obtain ⟨rfl, rfl, rfl⟩ := hgo
            obtain ⟨h1, h2, h3⟩ := ih _ i (j + 1) ax' ay' p'
              (by omega) (by omega) hrec
            simp only [ne_eq, decide_not] at h2 h3
            have hxi : i < x.length := by omega
            refine ⟨by simp [h1], ?_, ?_⟩
            · rw [take_succ_reverse x '?' i hxi]
              have hne := getD_ne_gap hxi hx
              rw [List.getD_eq_getElem?_getD] at hne
              simp [List.filter_cons, hne, h2]
            · simp [List.filter_cons, h3]
      · rw [show predRead (affTable sc x y) (k + 3) i j = none from rfl]
          at hgo
        simp only [] at hgo
        cases hgo

/-- The final backtrack table stores either `None` (borders and origin) or
the selected state tagged with the cell's own coordinates. -/
lemma aff_fP_shape (sc : ScoreM) (x y : List Char) (i j : Nat) :
    (affTable sc x y i j).fP = none ∨
    ∃ k, k ≤ 2 ∧ (affTable sc x y i j).fP = some (k, i, j) := by
  rcases i with _ | i <;> rcases j with _ | j
  · exact Or.inl rfl
  · exact Or.inl (by rw [affTable_row0_succ])
  · exact Or.inl (by rw [affTable_col0_succ])
  · exact Or.inr ⟨_, pick3_snd_le _ _ _, aff_fP_eq sc x y i j⟩

/-- C7 (amended): whenever the affine traceback completes on sequences that
do not themselves contain the gap marker, the two aligned strings have the
same length and removing every gap marker from them reconstructs exactly
the inputs.  (If an input itself contains the marker symbol `-`,
de-gapping also removes those symbols, so the gap-marker-free hypothesis is
necessary.) -/
theorem c7_aligned_strings_reconstruct (sc : ScoreM) (x y : List Char)
    (hx : '-' ∉ x) (hy : '-' ∉ y)
    (ax ay : List Char) (p : List (Nat × Nat × Nat)) (s : WithBot ℤ)
    (h : traceback_alignment_from_f_table x y sc = some (ax, ay, p, s)) :
    ax.length = ay.length ∧
    ax.filter (· ≠ '-') = x ∧ ay.filter (· ≠ '-') = y := by
  have hunf : traceback_alignment_from_f_table x y sc =
      match (affTable sc x y x.length y.length).fP with
      | none => none
      | some (k, i, j) =>
        match tbGo x y (affTable sc x y) (x.length + y.length) k i j with
        | none => none
        | some (ax, ay, p) =>
          some (ax.reverse, ay.reverse, p.reverse,
            (affTable sc x y x.length y.length).fS) := rfl
  rw [hunf] at h
  rcases aff_fP_shape sc x y x.length y.length with hfp | ⟨k, _, hfp⟩ <;>
    rw [hfp] at h <;> simp only [] at h
  · cases h
  · rcases hrec : tbGo x y (affTable sc x y) (x.length + y.length) k
        x.length y.length with _ | ⟨axr, ayr, pr⟩ <;> rw [hrec] at h
    · cases h
    · simp only [Option.some.injEq, Prod.mk.injEq] at h
      obtain ⟨rfl, rfl, rfl, rfl⟩ := h
      obtain ⟨h1, h2, h3⟩ := tb_strings sc x y hx hy _ k
        x.length y.length axr ayr pr (le_refl _) (le_refl _) hrec
      refine ⟨by simp [h1], ?_, ?_⟩
      · rw [List.filter_reverse, h2, List.reverse_reverse, List.take_length]
      · rw [List.filter_reverse, h3, List.reverse_reverse, List.take_length]

/-- Witness for C7 at the concrete scenario of C2. -/
theorem c7_aligned_strings_reconstruct_witness :
    (['A', '-', 'C'] : List Char).length = (['A', 'G', 'C'] : List Char).length ∧
    (['A', '-', 'C'] : List Char).filter (· ≠ '-') = ['A', 'C'] ∧
    (['A', 'G', 'C'] : List Char).filter (· ≠ '-') = ['A', 'G', 'C'] :=
  c7_aligned_strings_reconstruct
    ⟨fun a b => if a = b then 2 else -1, -2, -1⟩ ['A', 'C'] ['A', 'G', 'C']
    (by decide) (by decide) ['A', '-', 'C'] ['A', 'G', 'C']
    [(0, 0, 0), (1, 1, 0), (1, 2, 1), (2, 3, 0)] ((2 : ℤ) : WithBot ℤ)
    (by decide)

/-!
## Equivalence of the two linear-gap scripts
-/

lemma lin1Table_interior_sS (sub : Char → Char → ℤ) (δ : ℤ)
    (x y : List Char) (i j : Nat) :
    (lin1Table sub δ x y (i + 1) (j + 1)).sS =
      max (max ((lin1Table sub δ x y i j).sS +
          sub (x.getD i '?') (y.getD j '?'))
        ((lin1Table sub δ x y i (j + 1)).sS + δ))
        ((lin1Table sub δ x y (i + 1) j).sS + δ) := rfl

/-- The two linear fills compute identical score tables at every cell. -/
lemma lin_scores_eq (sub : Char → Char → ℤ) (δ : ℤ) (x y : List Char) :
    ∀ i j, (linTable sub δ x y i j).sS = (lin1Table sub δ x y i j).sS := by
  intro i
  induction i with
  | zero =>
    intro j
    induction j with
    | zero => rfl
    | succ j ih =>
      rw [show (linTable sub δ x y 0 (j + 1)).sS =
        (linTable sub δ x y 0 j).sS + δ from rfl,
        show (lin1Table sub δ x y 0 (j + 1)).sS =
        (lin1Table sub δ x y 0 j).sS + δ from rfl, ih]
  | succ i ih =>
    intro j
    induction j with
    | zero =>
      rw [show (linTable sub δ x y (i + 1) 0).sS =
        (linTable sub δ x y i 0).sS + δ from rfl,
        show (lin1Table sub δ x y (i + 1) 0).sS =
        (lin1Table sub δ x y i 0).sS + δ from rfl, ih 0]
    | succ j ihj =>
      rw [linTable_interior_sS, lin1Table_interior_sS, ih j, ih (j + 1), ihj]

lemma linTable_interior_pP (sub : Char → Char → ℤ) (δ : ℤ)
    (x y : List Char) (i j : Nat) :
    (linTable sub δ x y (i + 1) (j + 1)).pP =
      (if max (max ((linTable sub δ x y i j).sS +
            sub (x.getD i '?') (y.getD j '?'))
          ((linTable sub δ x y i (j + 1)).sS + δ))
          ((linTable sub δ x y (i + 1) j).sS + δ) =
          (linTable sub δ x y i j).sS + sub (x.getD i '?') (y.getD j '?')
       then some (i, j)
       else if max (max ((linTable sub δ x y i j).sS +
            sub (x.getD i '?') (y.getD j '?'))
          ((linTable sub δ x y i (j + 1)).sS + δ))
          ((linTable sub δ x y (i + 1) j).sS + δ) =
          (linTable sub δ x y i (j + 1)).sS + δ
       then some (i, j + 1) else some (i + 1, j)) := rfl

lemma lin1Table_interior_pP (sub : Char → Char → ℤ) (δ : ℤ)
    (x y : List Char) (i j : Nat) :
    (lin1Table sub δ x y (i + 1) (j + 1)).pP =
      (if max (max ((lin1Table sub δ x y i j).sS +
            sub (x.getD i '?') (y.getD j '?'))
          ((lin1Table sub δ x y i (j + 1)).sS + δ))
          ((lin1Table sub δ x y (i + 1) j).sS + δ) =
          (lin1Table sub δ x y i j).sS + sub (x.getD i '?') (y.getD j '?')
       then ((i : ℤ), (j : ℤ))
       else if max (max ((lin1Table sub δ x y i j).sS +
            sub (x.getD i '?') (y.getD j '?'))
          ((lin1Table sub δ x y i (j + 1)).sS + δ))
          ((lin1Table sub δ x y (i + 1) j).sS + δ) =
          (lin1Table sub δ x y i (j + 1)).sS + δ
       then ((i : ℤ), (j : ℤ) + 1) else ((i : ℤ) + 1, (j : ℤ))) := rfl

/-- Away from `(0,0)` the two linear fills store the same predecessor, up
to the `Option`-versus-integer-pair representation. -/
lemma lin_prev_eq (sub : Char → Char → ℤ) (δ : ℤ) (x y : List Char) :
    ∀ i j, ¬(i = 0 ∧ j = 0) → ∃ a b : Nat,
      (linTable sub δ x y i j).pP = some (a, b) ∧
      (lin1Table sub δ x y i j).pP = ((a : ℤ), (b : ℤ)) := by
  intro i j hij
  rcases i with _ | i <;> rcases j with _ | j
  · exact absurd ⟨rfl, rfl⟩ hij
  · exact ⟨0, j, rfl, rfl⟩
  · exact ⟨i, 0, rfl, rfl⟩
  · rw [linTable_interior_pP, lin1Table_interior_pP,
      lin_scores_eq sub δ x y i j, lin_scores_eq sub δ x y i (j + 1),
      lin_scores_eq sub δ x y (i + 1) j]
    split_ifs
    · exact ⟨i, j, rfl, rfl⟩
    · exact ⟨i, j + 1, rfl, by push_cast; rfl⟩
    · exact ⟨i + 1, j, rfl, by push_cast; rfl⟩

lemma tbLin_done (x y : List Char) (t : Nat → Nat → LinCell) (fuel : Nat) :
    tbLin x y t fuel 0 0 = some ([], [], [(0, 0)]) := by
  cases fuel <;> simp [tbLin]

lemma tbLin1_done (x y : List Char) (t : Nat → Nat → Lin1Cell) (fuel : Nat) :
    tbLin1 x y t fuel 0 0 = some ([], [], [(0, 0)]) := by
  cases fuel <;> simp [tbLin1]

/-- The two (textually identical) traceback loops of the linear scripts
agree everywhere: the only table cell on which their inputs differ,
`(0,0)`, is read by neither loop. -/
lemma tbs_eq (sub : Char → Char → ℤ) (δ : ℤ) (x y : List Char) :
    ∀ fuel i j, tbLin x y (linTable sub δ x y) fuel i j =
      tbLin1 x y (lin1Table sub δ x y) fuel i j := by
  intro fuel
  induction fuel with
  | zero =>
    intro i j
    by_cases hij : i = 0 ∧ j = 0
    · obtain ⟨rfl, rfl⟩ := hij
      rw [tbLin_done, tbLin1_done]
    · simp [tbLin, tbLin1, hij]
  | succ fuel ih =>
    intro i j
    by_cases hij : i = 0 ∧ j = 0
    · obtain ⟨rfl, rfl⟩ := hij
      rw [tbLin_done, tbLin1_done]
    · obtain ⟨a, b, hp, hp1⟩ := lin_prev_eq sub δ x y i j hij
      rw [show tbLin x y (linTable sub δ x y) (fuel + 1) i j =
        (if i = 0 ∧ j = 0 then some ([], [], [(i, j)])
         else
           match (linTable sub δ x y i j).pP with
           | none => none
           | some (pi, pj) =>
             match tbLin x y (linTable sub δ x y) fuel pi pj with
             | none => none
             | some (ax, ay, p) =>
               some ((if (pi : ℤ) = (i : ℤ) - 1 ∧ (pj : ℤ) = (j : ℤ) - 1 then
                        x.getD pi '?'
                      else if (pi : ℤ) = (i : ℤ) - 1 ∧ (pj : ℤ) = (j : ℤ) then
                        x.getD pi '?'
                      else '-') :: ax,
                     (if (pi : ℤ) = (i : ℤ) - 1 ∧ (pj : ℤ) = (j : ℤ) - 1 then
                        y.getD pj '?'
                      else if (pi : ℤ) = (i : ℤ) - 1 ∧ (pj : ℤ) = (j : ℤ) then
                        '-'
                      else y.getD pj '?') :: ay,
                     (i, j) :: p)) from rfl,
        show tbLin1 x y (lin1Table sub δ x y) (fuel + 1) i j =
        (if i = 0 ∧ j = 0 then some ([], [], [(i, j)])
         else
           match tbLin1 x y (lin1Table sub δ x y) fuel
               (lin1Table sub δ x y i j).pP.1.toNat
               (lin1Table sub δ x y i j).pP.2.toNat with
           | none => none
           | some (ax, ay, p) =>
             some ((if (lin1Table sub δ x y i j).pP.1 = (i : ℤ) - 1 ∧
                      (lin1Table sub δ x y i j).pP.2 = (j : ℤ) - 1 then
                      x.getD (lin1Table sub δ x y i j).pP.1.toNat '?'
                    else if (lin1Table sub δ x y i j).pP.1 = (i : ℤ) - 1 ∧
                      (lin1Table sub δ x y i j).pP.2 = (j : ℤ) then
                      x.getD (lin1Table sub δ x y i j).pP.1.toNat '?'
                    else '-') :: ax,
                   (if (lin1Table sub δ x y i j).pP.1 = (i : ℤ) - 1 ∧
                      (lin1Table sub δ x y i j).pP.2 = (j : ℤ) - 1 then
                      y.getD (lin1Table sub δ x y i j).pP.2.toNat '?'
                    else if (lin1Table sub δ x y i j).pP.1 = (i : ℤ) - 1 ∧
                      (lin1Table sub δ x y i j).pP.2 = (j : ℤ) then '-'
                    else y.getD (lin1Table sub δ x y i j).pP.2.toNat '?') ::
                     ay,
                   (i, j) :: p)) from rfl,
        if_neg hij, if_neg hij, hp, hp1]
      simp only [Int.toNat_natCast, ih a b]

/-- The two linear scripts produce identical traceback output (aligned
strings, path, final score). -/
lemma traceback_lin_eq (sub : Char → Char → ℤ) (δ : ℤ) (x y : List Char) :
    traceback_alignment x y sub δ = traceback_alignment1 x y sub δ := by
  simp only [traceback_alignment, traceback_alignment1,
    tbs_eq sub δ x y (x.length + y.length) x.length y.length,
    lin_scores_eq sub δ x y x.length y.length]

/-- C10: the two linear-gap variants (`task.py` and `task1.py`) compute
identical score tables at every cell and identical predecessor tables at
every cell except `(0,0)` — where `task.py` keeps `None` and `task1.py`
keeps `(-1,-1)`, neither of which the traceback ever reads — and their
tracebacks return identical aligned strings, paths and final scores. -/
theorem c10_linear_variants_equivalent (sub : Char → Char → ℤ) (δ : ℤ)
    (x y : List Char) :
    (∀ i j, (linTable sub δ x y i j).sS = (lin1Table sub δ x y i j).sS) ∧
    ((linTable sub δ x y 0 0).pP = none ∧
      (lin1Table sub δ x y 0 0).pP = (-1, -1)) ∧
    (∀ i j, ¬(i = 0 ∧ j = 0) → ∃ a b : Nat,
      (linTable sub δ x y i j).pP = some (a, b) ∧
      (lin1Table sub δ x y i j).pP = ((a : ℤ), (b : ℤ))) ∧
    traceback_alignment x y sub δ = traceback_alignment1 x y sub δ :=
  ⟨lin_scores_eq sub δ x y, ⟨rfl, rfl⟩, lin_prev_eq sub δ x y,
    traceback_lin_eq sub δ x y⟩

/-- Witness for C10: the inner predecessor-agreement hypothesis discharged
at the concrete cell `(1, 0)` of a concrete run. -/
theorem c10_linear_variants_equivalent_witness :
    ¬((1 : Nat) = 0 ∧ (0 : Nat) = 0) ∧
    ∃ a b : Nat,
      (linTable (fun _ _ => 1) (-2) ['A'] ['C'] 1 0).pP = some (a, b) ∧
      (lin1Table (fun _ _ => 1) (-2) ['A'] ['C'] 1 0).pP =
        ((a : ℤ), (b : ℤ)) :=
  ⟨by decide,
    (c10_linear_variants_equivalent (fun _ _ => 1) (-2) ['A'] ['C']).2.2.1
      1 0 (by decide)⟩

/-- C7 counterexample: if an input sequence itself contains the gap marker
symbol, de-gapping the aligned output removes the input's own symbols too:
aligning X = "-" with Y = "-" completes, but removing the gap markers from
the aligned X gives the empty string, not X. -/
theorem c7_aligned_strings_counterexample :
    traceback_alignment_from_f_table ['-'] ['-'] ⟨fun _ _ => 2, -2, -1⟩ =
      some (['-'], ['-'], [(0, 0, 0), (1, 1, 0)], ((2 : ℤ) : WithBot ℤ)) ∧
    (['-'] : List Char).filter (· ≠ '-') ≠ ['-'] := by
  exact ⟨by decide, by decide⟩
